import Mathlib

/-! lineinfile: line-level reconciliation of a text file

A shallow embedding of `main.go`: the flag record, the scan and the decision of
`do_present`, the helper `insert`, the loops of `do_absent`, and the content
that `write_changes` writes; then the same functions with their effects on a
file system, where the outcome of every system call is a parameter `sys`.
Go's `regexp` package is an external library; it enters every definition as the
parameter `compile`, standing for `re.Compile` followed by `MatchString` on the
compiled value.
-/

namespace LineInFile

/-! ## Data model -/

/-- What makes a Go function stop early: a returned `error` value, or a run-time
panic (index or slice bound out of range, nil dereference). -/
inductive Failure where
  | error (msg : String)
  | panic (what : String)
  deriving DecidableEq, Repr

/-- A compiled `*re.Regexp`, as far as the program uses one: `MatchString`. -/
structure Regexp where
  MatchString : String → Bool

/-- The flag and argument variables of `main.go` (lines 16-46), after
`kingpin.Parse`.  `insert_after` defaults to `"EOF"`, every other string flag
to `""`, every boolean flag to `false`. -/
structure Config where
  line : String
  dest : String := ""
  backup : Bool := false
  create : Bool := false
  absent : Bool := false
  regexp : String := ""
  insert_after : String := "EOF"
  insert_before : String := ""
  group : String := ""
  mode : String := ""
  owner : String := ""

/-- The type of `re.Compile`: a pattern compiles to a matcher or is rejected
with an error message. -/
abbrev Compiler := String → Except String Regexp

/-! ## `insert` (lines 261-263) -/

/-- `insert(slice, pos, elements...)`:
`append(slice[:pos], append(elements, slice[pos:]...)...)`.  The slice
expressions panic unless `0 ≤ pos ≤ len(slice)`. -/
def insert (slice : List String) (pos : Int) (elements : List String) :
    Except Failure (List String) :=
  if 0 ≤ pos ∧ pos ≤ (slice.length : Int) then
    .ok (slice.take pos.toNat ++ (elements ++ slice.drop pos.toNat))
  else
    .error (.panic "slice bounds out of range")

/-! ## `do_present` (lines 166-259) -/

/-- Lines 185-192: `bre_m` is compiled from `regexp` when that flag is not
empty, and stays nil otherwise. -/
def compile_bre_m (compile : Compiler) (cfg : Config) : Except Failure (Option Regexp) :=
  if cfg.regexp ≠ "" then
    match compile cfg.regexp with
    | .ok res => .ok (some res)
    | .error err => .error (.error err)
  else
    .ok none

/-- Lines 194-207: `bre_ins` is compiled from `insert_after` when that is
neither empty nor a sentinel, else from `insert_before` when that is neither
empty nor `"BOF"`, else it stays nil. -/
def compile_bre_ins (compile : Compiler) (cfg : Config) : Except Failure (Option Regexp) :=
  if cfg.insert_after ≠ "" ∧ cfg.insert_after ≠ "BOF" ∧ cfg.insert_after ≠ "EOF" then
    match compile cfg.insert_after with
    | .ok res => .ok (some res)
    | .error err => .error (.error err)
  else if cfg.insert_before ≠ "" ∧ cfg.insert_before ≠ "BOF" then
    match compile cfg.insert_before with
    | .ok res => .ok (some res)
    | .error err => .error (.error err)
  else
    .ok none

/-- Lines 212-217: the value of `match_found` for the current line.  `bre_m` is
dereferenced only when `regexp` is not empty, where `compile_bre_m` has set it;
the nil case of that branch is never reached from `do_present_lines`. -/
def match_found (cfg : Config) (bre_m : Option Regexp) (b_cur_line : String) : Bool :=
  if cfg.regexp ≠ "" then
    match bre_m with
    | some r => r.MatchString b_cur_line
    | none => false
  else
    b_cur_line == cfg.line

/-- The test `bre_ins != nil && bre_ins.MatchString(b_cur_line)` of line 220. -/
def ins_found (bre_ins : Option Regexp) (b_cur_line : String) : Bool :=
  match bre_ins with
  | some r => r.MatchString b_cur_line
  | none => false

/-- Lines 221-226: the two successive, non-exclusive assignments to
`insert_idx` on an anchor match. -/
def anchor_idx (cfg : Config) (lineno : Int) (insert_idx : Int) : Int :=
  let insert_idx := if cfg.insert_after ≠ "" then lineno + 1 else insert_idx
  let insert_idx := if cfg.insert_before ≠ "" then lineno else insert_idx
  insert_idx

/-- One iteration of the loop body, lines 212-227, on the pair
`(line_idx, insert_idx)`. -/
def scan_step (cfg : Config) (bre_m bre_ins : Option Regexp) (lineno : Int)
    (b_cur_line : String) (st : Int × Int) : Int × Int :=
  if match_found cfg bre_m b_cur_line then
    (lineno, st.2)
  else if ins_found bre_ins b_cur_line then
    (st.1, anchor_idx cfg lineno st.2)
  else
    st

/-- The `range` loop of lines 211-228 over the lines still to visit, `lineno`
being the index of the first of them. -/
def scan_from (cfg : Config) (bre_m bre_ins : Option Regexp) :
    List String → Int → Int × Int → Int × Int
  | [], _, st => st
  | b_cur_line :: rest, lineno, st =>
    scan_from cfg bre_m bre_ins rest (lineno + 1)
      (scan_step cfg bre_m bre_ins lineno b_cur_line st)

/-- Lines 209-228: both indices start at `-1` and the loop visits all lines. -/
def scan (cfg : Config) (bre_m bre_ins : Option Regexp) (b_lines : List String) : Int × Int :=
  scan_from cfg bre_m bre_ins b_lines 0 (-1, -1)

/-- Lines 230-247: the decision.  Returns the new `b_lines` and `changed`. -/
def reconcile (cfg : Config) (b_lines : List String) (line_idx insert_idx : Int) :
    Except Failure (List String × Bool) :=
  if line_idx ≠ -1 then
    if 0 ≤ line_idx then
      match b_lines[line_idx.toNat]? with
      | some old => .ok (b_lines.set line_idx.toNat cfg.line, old != cfg.line)
      | none => .error (.panic "index out of range")
    else
      .error (.panic "index out of range")
  else if insert_idx ≠ -1 then
    match insert b_lines insert_idx [cfg.line] with
    | .ok r => .ok (r, true)
    | .error e => .error e
  else if cfg.insert_before = "BOF" ∨ cfg.insert_after = "BOF" then
    .ok ([cfg.line] ++ b_lines, true)
  else if b_lines.length > 0 ∧ b_lines[b_lines.length - 1]? = some "" then
    match insert b_lines ((b_lines.length : Int) - 1) [cfg.line] with
    | .ok r => .ok (r, true)
    | .error e => .error e
  else
    .ok (b_lines ++ [cfg.line], true)

/-- Lines 185-247 of `do_present`, from the line sequence read (or the nil
slice of a destination to create) to the reconciled sequence and `changed`. -/
def do_present_lines (compile : Compiler) (cfg : Config) (b_lines : List String) :
    Except Failure (List String × Bool) :=
  match compile_bre_m compile cfg with
  | .error e => .error e
  | .ok bre_m =>
    match compile_bre_ins compile cfg with
    | .error e => .error e
    | .ok bre_ins =>
      let idx := scan cfg bre_m bre_ins b_lines
      reconcile cfg b_lines idx.1 idx.2

/-! ## `do_absent` (lines 58-98) -/

/-- The loop of lines 76-80 on the lines still to visit: a line is appended to
`keep` when the compiled `regexp` matches it. -/
def keep_matching (bre_c : Regexp) : List String → List String → List String
  | [], keep => keep
  | l :: rest, keep =>
    keep_matching bre_c rest (if bre_c.MatchString l then keep ++ [l] else keep)

/-- The loop of lines 82-86 on the lines still to visit: a line is appended to
`keep` when it differs from `line`. -/
def keep_unequal (line : String) : List String → List String → List String
  | [], keep => keep
  | l :: rest, keep =>
    keep_unequal line rest (if l != line then keep ++ [l] else keep)

/-- Lines 70-87: the `keep` slice built from the lines read, starting empty. -/
def do_absent_keep (compile : Compiler) (cfg : Config) (b_lines : List String) :
    Except Failure (List String) :=
  if cfg.regexp ≠ "" then
    match compile cfg.regexp with
    | .error err => .error (.error err)
    | .ok bre_c => .ok (keep_matching bre_c b_lines [])
  else
    .ok (keep_unequal cfg.line b_lines [])

/-! ## `write_changes` (lines 131-164) -/

/-- `strings.Join(elems, sep)`: the elements with `sep` between neighbours. -/
def Join : List String → String → String
  | [], _ => ""
  | [e], _ => e
  | e :: rest, sep => e ++ sep ++ Join rest sep

/-- Line 137: the text `write_changes` writes to the temporary file that is then
renamed onto the destination. -/
def written_content (b_lines : List String) : String :=
  Join b_lines "\n"

/-! ## A concrete regular-expression fragment

`re.Compile` restricted to patterns made of an optional leading `^`, letters,
digits and blanks, and an optional trailing `$`.  On these patterns Go matches
the literal text anywhere in the line, at its start (`^`), at its end (`$`), or
as the whole line (both).  Any other pattern is outside this fragment and is
rejected here; the fragment serves concrete runs only. -/

/-- Does `lit` occur as a contiguous block of `text`? -/
def occursIn (lit : List Char) : List Char → Bool
  | [] => lit.isEmpty
  | c :: rest => lit.isPrefixOf (c :: rest) || occursIn lit rest

/-- Is the character a literal of the fragment? -/
def plainChar (c : Char) : Bool :=
  c.isAlphanum || c == ' '

/-- The matcher of a fragment pattern given as characters. -/
def fragmentMatcher (pat : List Char) : Option (List Char → Bool) :=
  let anchoredStart := pat.head? == some '^'
  let body₁ := if anchoredStart then pat.drop 1 else pat
  let anchoredEnd := body₁.getLast? == some '$'
  let body := if anchoredEnd then body₁.dropLast else body₁
  if body.all plainChar then
    some (fun text =>
      match anchoredStart, anchoredEnd with
      | true, true => text == body
      | true, false => body.isPrefixOf text
      | false, true => body.isSuffixOf text
      | false, false => occursIn body text)
  else
    none

/-- The fragment as a `Compiler`. -/
def fragmentCompile : Compiler := fun pattern =>
  match fragmentMatcher pattern.toList with
  | some m => .ok ⟨fun s => m s.toList⟩
  | none => .error ("pattern outside the modelled fragment: " ++ pattern)

/-! ## `strings.Split` on the newline -/

/-- The pieces of a text between occurrences of the separator character: one
more piece than there are separators, so never empty. -/
def split_chars (sep : Char) : List Char → List (List Char)
  | [] => [[]]
  | c :: cs =>
    if c = sep then
      [] :: split_chars sep cs
    else
      match split_chars sep cs with
      | piece :: pieces => (c :: piece) :: pieces
      | [] => [[c]]

/-- `strings.Split(s, sep)` for a separator of one character; the program calls
it with `"\n"` only (lines 68 and 182). -/
def Split (s : String) (sep : Char) : List String :=
  (split_chars sep s.data).map String.mk

/-! ## The file system and the outcomes of system calls -/

/-- An effectful call the program makes, recorded in the order of execution. -/
inductive Call where
  | MkdirAll (path : String)
  | backup_local (fn : String)
  | write_changes (b_lines : List String)
  deriving DecidableEq, Repr

/-- The state a run acts on: the content of every regular file by path, the
calls made so far, and what was printed on standard output.  Ownership and
permission bits are not part of the state. -/
structure World where
  files : String → Option String
  calls : List Call := []
  stdout : List String := []

/-- The file at `path` holds `content` afterwards. -/
def World.put (w : World) (path content : String) : World :=
  { w with files := fun p => if p = path then some content else w.files p }

/-- No file at `path` afterwards. -/
def World.del (w : World) (path : String) : World :=
  { w with files := fun p => if p = path then none else w.files p }

/-- `os.Rename(oldpath, newpath)` succeeding: the new path holds what the old
one held, and the old path is gone. -/
def World.rename (w : World) (oldpath newpath : String) : World :=
  { w with files := fun p =>
      if p = newpath then w.files oldpath else if p = oldpath then none else w.files p }

/-- One more call in the record. -/
def World.log (w : World) (c : Call) : World :=
  { w with calls := w.calls ++ [c] }

/-- `fmt.Print` of a text. -/
def World.print (w : World) (text : String) : World :=
  { w with stdout := w.stdout ++ [text] }

/-- What the operating system and the libraries answer during one run: each
`_err` field is the error of that step, `none` for success; a failed write or
copy also tells the text that reached the file before the failure.  `stat_err`
is the error of `os.Stat` on the destination when it fails for a reason other
than the path not existing (a component that is not a directory, no search
permission): `os.IsNotExist` is false for such an error. -/
structure Sys where
  Dir : String → String := id
  stat_err : Option String := none
  read_err : Option String := none
  pid : Nat := 1
  now : String := "2006-01-02T15:04:05Z"
  open_err : Option String := none
  create_err : Option String := none
  copy_err : Option (String × String) := none
  sync_err : Option String := none
  out_close_err : Option String := none
  tempfile : Except String String := .ok "/tmp/lineinfile0"
  write_err : Option (String × String) := none
  close_err : Option String := none
  chown_err : Option String := none
  chgrp_err : Option String := none
  chmod_err : Option String := none
  rename_err : Option String := none
  remove_err : Option String := none

/-! ## `backup_local` and `copyFile` (lines 101-128) -/

/-- `copyFile(src, dst)`: open the source, create the destination, copy, sync,
and close; the deferred close reports its error only when nothing failed
before. -/
def copyFile (sys : Sys) (w : World) (src dst : String) : World × Option Failure :=
  match w.files src, sys.open_err with
  | none, _ => (w, some (.error "open: no such file or directory"))
  | some _, some err => (w, some (.error err))
  | some content, none =>
    match sys.create_err with
    | some err => (w, some (.error err))
    | none =>
      match sys.copy_err with
      | some (err, copied) => (w.put dst copied, some (.error err))
      | none =>
        match sys.sync_err with
        | some err => (w.put dst content, some (.error err))
        | none => (w.put dst content, sys.out_close_err.map Failure.error)

/-- `backup_local(fn)`: copy `fn` to `fn.<pid>.<timestamp>`. -/
def backup_local (sys : Sys) (w : World) (fn : String) : World × Option Failure :=
  let backupdest := fn ++ "." ++ toString sys.pid ++ "." ++ sys.now
  copyFile sys (w.log (.backup_local fn)) fn backupdest

/-! ## `write_changes` (lines 131-164), with its effects -/

/-- The deferred `os.Remove(tmpfile.Name())` of line 136 and the return. -/
def write_changes_return (sys : Sys) (tmp : String) (w : World) (err : Option Failure) :
    World × Option Failure :=
  match sys.remove_err with
  | some _ => (w, err)
  | none => (w.del tmp, err)

/-- `write_changes(b_lines)`: temporary file, write of the joined lines, close,
`chown`, `chgrp`, `chmod` when configured, rename onto the destination. -/
def write_changes (sys : Sys) (cfg : Config) (w : World) (b_lines : List String) :
    World × Option Failure :=
  let w := w.log (.write_changes b_lines)
  match sys.tempfile with
  | .error err => (w, some (.error err))
  | .ok tmp =>
    let w := w.put tmp ""
    match sys.write_err with
    | some (err, written) => write_changes_return sys tmp (w.put tmp written) (some (.error err))
    | none =>
      let w := w.put tmp (Join b_lines "\n")
      match sys.close_err with
      | some err => write_changes_return sys tmp w (some (.error err))
      | none =>
        if cfg.owner ≠ "" ∧ sys.chown_err.isSome then
          write_changes_return sys tmp w (sys.chown_err.map Failure.error)
        else if cfg.group ≠ "" ∧ sys.chgrp_err.isSome then
          write_changes_return sys tmp w (sys.chgrp_err.map Failure.error)
        else if cfg.mode ≠ "" ∧ sys.chmod_err.isSome then
          write_changes_return sys tmp w (sys.chmod_err.map Failure.error)
        else
          match sys.rename_err with
          | some err => write_changes_return sys tmp w (some (.error err))
          | none => write_changes_return sys tmp (w.rename tmp cfg.dest) none

/-! ## `do_absent`, `do_present` and `main` with their effects -/

/-- `do_absent()` (lines 58-98).  `os.IsNotExist` holds of the `os.Stat` error
when no file is at the destination and `stat` did not fail otherwise; after any
other `stat` error the code goes on to `ioutil.ReadFile`, which fails on the
missing file, and the error is printed and returned. -/
def do_absent (compile : Compiler) (sys : Sys) (cfg : Config) (w : World) :
    World × Option Failure :=
  match w.files cfg.dest with
  | none =>
    match sys.stat_err with
    | none => (w, none)
    | some err => (w.print (sys.read_err.getD err), some (.error (sys.read_err.getD err)))
  | some content =>
    match sys.read_err with
    | some err => (w.print err, some (.error err))
    | none =>
      let b_lines := Split content '\n'
      match do_absent_keep compile cfg b_lines with
      | .error e => (w, some e)
      | .ok keep =>
        if keep.length ≠ b_lines.length ∧ cfg.backup = true then
          match backup_local sys w cfg.dest with
          | (w, some err) => (w, some err)
          | (w, none) => write_changes sys cfg w keep
        else
          write_changes sys cfg w keep

/-- Lines 167-183 of `do_present`: the lines read, or the nil slice after
`MkdirAll` when `os.Stat` reports that the destination does not exist and
`create` is set; after any other `stat` error the read fails as in
`do_absent`. -/
def do_present_read (sys : Sys) (cfg : Config) (w : World) :
    World × Except Failure (List String) :=
  match w.files cfg.dest with
  | none =>
    match sys.stat_err with
    | none =>
      if cfg.create = false then
        (w, .error (.error "stat: no such file or directory"))
      else
        (w.log (.MkdirAll (sys.Dir cfg.dest)), .ok [])
    | some err =>
      (w.print (sys.read_err.getD err), .error (.error (sys.read_err.getD err)))
  | some content =>
    match sys.read_err with
    | some err => (w.print err, .error (.error err))
    | none => (w, .ok (Split content '\n'))

/-- `do_present()` (lines 166-259).  The value of `write_changes` on line 255
is dropped and `nil` is returned. -/
def do_present (compile : Compiler) (sys : Sys) (cfg : Config) (w : World) :
    World × Option Failure :=
  match do_present_read sys cfg w with
  | (w, .error e) => (w, some e)
  | (w, .ok b_lines) =>
    match do_present_lines compile cfg b_lines with
    | .error e => (w, some e)
    | .ok (b_lines, changed) =>
      if changed = true then
        if cfg.backup = true then
          match backup_local sys w cfg.dest with
          | (w, some err) => (w, some err)
          | (w, none) => ((write_changes sys cfg w b_lines).1, none)
        else
          ((write_changes sys cfg w b_lines).1, none)
      else
        (w, none)

/-- The exit status of the process when `main` is left with the given value of
`do_absent` or `do_present`: `main` does not look at the returned error (lines
52 and 54) and returns, which ends the process with status 0; a panic ends it
with status 2. -/
def exit_status : Option Failure → Nat
  | some (.panic _) => 2
  | some (.error _) => 0
  | none => 0

/-- `main()` (lines 48-56) after flag parsing: the final state and the exit
status. -/
def main (compile : Compiler) (sys : Sys) (cfg : Config) (w : World) : World × Nat :=
  if cfg.absent = true then
    ((do_absent compile sys cfg w).1, exit_status (do_absent compile sys cfg w).2)
  else
    ((do_present compile sys cfg w).1, exit_status (do_present compile sys cfg w).2)

/-- The state with a single file and nothing called or printed yet. -/
def World.single (path content : String) : World :=
  { files := fun p => if p = path then some content else none }

/-! ## The scan -/

theorem scan_from_append (cfg : Config) (bre_m bre_ins : Option Regexp) (xs ys : List String)
    (n : Int) (st : Int × Int) :
    scan_from cfg bre_m bre_ins (xs ++ ys) n st =
      scan_from cfg bre_m bre_ins ys (n + xs.length) (scan_from cfg bre_m bre_ins xs n st) := by
  induction xs generalizing n st with
  | nil => simp [scan_from]
  | cons x xs ih =>
    have hlen : n + 1 + (xs.length : Int) = n + ((xs.length + 1 : Nat) : Int) := by
      push_cast
      ring
    rw [List.cons_append, scan_from, scan_from, ih, List.length_cons, hlen]

theorem scan_from_fst_of_no_match (cfg : Config) (bre_m bre_ins : Option Regexp)
    (xs : List String) (n : Int) (st : Int × Int)
    (h : ∀ l ∈ xs, match_found cfg bre_m l = false) :
    (scan_from cfg bre_m bre_ins xs n st).1 = st.1 := by
  induction xs generalizing n st with
  | nil => rfl
  | cons x xs ih =>
    have hx : match_found cfg bre_m x = false := h x (List.mem_cons_self _ _)
    have hxs : ∀ l ∈ xs, match_found cfg bre_m l = false :=
      fun l hl => h l (List.mem_cons_of_mem _ hl)
    rw [scan_from, ih _ _ hxs]
    unfold scan_step
    rw [hx]
    by_cases ha : ins_found bre_ins x = true <;> simp [ha]

theorem scan_from_of_no_hit (cfg : Config) (bre_m bre_ins : Option Regexp)
    (xs : List String) (n : Int) (st : Int × Int)
    (h : ∀ l ∈ xs, match_found cfg bre_m l = false)
    (ha : ∀ l ∈ xs, ins_found bre_ins l = false) :
    scan_from cfg bre_m bre_ins xs n st = st := by
  induction xs generalizing n st with
  | nil => rfl
  | cons x xs ih =>
    have hx : match_found cfg bre_m x = false := h x (List.mem_cons_self _ _)
    have hax : ins_found bre_ins x = false := ha x (List.mem_cons_self _ _)
    rw [scan_from, ih _ _ (fun l hl => h l (List.mem_cons_of_mem _ hl))
      (fun l hl => ha l (List.mem_cons_of_mem _ hl))]
    simp [scan_step, hx, hax]

theorem anchor_idx_cases (cfg : Config) (lineno prev : Int) :
    anchor_idx cfg lineno prev = lineno + 1 ∨ anchor_idx cfg lineno prev = lineno ∨
      anchor_idx cfg lineno prev = prev := by
  unfold anchor_idx
  by_cases hb : cfg.insert_before ≠ "" <;> by_cases ha : cfg.insert_after ≠ "" <;> simp [hb, ha]

theorem scan_step_snd_cases (cfg : Config) (bre_m bre_ins : Option Regexp) (n : Int)
    (x : String) (st : Int × Int) :
    (scan_step cfg bre_m bre_ins n x st).2 = st.2 ∨
      (scan_step cfg bre_m bre_ins n x st).2 = n + 1 ∨
      (scan_step cfg bre_m bre_ins n x st).2 = n := by
  unfold scan_step
  split
  · exact Or.inl rfl
  · split
    · rcases anchor_idx_cases cfg n st.2 with h | h | h
      · exact Or.inr (Or.inl h)
      · exact Or.inr (Or.inr h)
      · exact Or.inl h
    · exact Or.inl rfl

theorem scan_from_snd_bounds (cfg : Config) (bre_m bre_ins : Option Regexp)
    (xs : List String) (n : Int) (st : Int × Int) (hn : 0 ≤ n)
    (hst : st.2 = -1 ∨ (0 ≤ st.2 ∧ st.2 ≤ n)) :
    (scan_from cfg bre_m bre_ins xs n st).2 = -1 ∨
      (0 ≤ (scan_from cfg bre_m bre_ins xs n st).2 ∧
        (scan_from cfg bre_m bre_ins xs n st).2 ≤ n + xs.length) := by
  induction xs generalizing n st with
  | nil => simpa [scan_from] using hst
  | cons x xs ih =>
    rw [scan_from]
    have hstep : (scan_step cfg bre_m bre_ins n x st).2 = -1 ∨
        (0 ≤ (scan_step cfg bre_m bre_ins n x st).2 ∧
          (scan_step cfg bre_m bre_ins n x st).2 ≤ n + 1) := by
      rcases scan_step_snd_cases cfg bre_m bre_ins n x st with h | h | h <;> rw [h] <;> omega
    have := ih (n + 1) (scan_step cfg bre_m bre_ins n x st) (by omega) hstep
    simp only [List.length_cons]
    push_cast
    omega

theorem scan_fst_of_last_match (cfg : Config) (bre_m bre_ins : Option Regexp)
    (pre post : List String) (x : String)
    (hx : match_found cfg bre_m x = true)
    (hpost : ∀ l ∈ post, match_found cfg bre_m l = false) :
    (scan cfg bre_m bre_ins (pre ++ x :: post)).1 = pre.length := by
  unfold scan
  rw [scan_from_append, scan_from, scan_from_fst_of_no_match _ _ _ _ _ _ hpost]
  simp [scan_step, hx]

theorem scan_fst_of_no_match (cfg : Config) (bre_m bre_ins : Option Regexp)
    (b_lines : List String) (h : ∀ l ∈ b_lines, match_found cfg bre_m l = false) :
    (scan cfg bre_m bre_ins b_lines).1 = -1 := by
  unfold scan
  rw [scan_from_fst_of_no_match _ _ _ _ _ _ h]

theorem scan_snd_bounds (cfg : Config) (bre_m bre_ins : Option Regexp) (b_lines : List String) :
    (scan cfg bre_m bre_ins b_lines).2 = -1 ∨
      (0 ≤ (scan cfg bre_m bre_ins b_lines).2 ∧
        (scan cfg bre_m bre_ins b_lines).2 ≤ b_lines.length) := by
  have := scan_from_snd_bounds cfg bre_m bre_ins b_lines 0 (-1, -1) (le_refl 0) (Or.inl rfl)
  simpa [scan] using this

theorem scan_of_no_hit (cfg : Config) (bre_m bre_ins : Option Regexp) (b_lines : List String)
    (h : ∀ l ∈ b_lines, match_found cfg bre_m l = false)
    (ha : ∀ l ∈ b_lines, ins_found bre_ins l = false) :
    scan cfg bre_m bre_ins b_lines = (-1, -1) :=
  scan_from_of_no_hit cfg bre_m bre_ins b_lines 0 (-1, -1) h ha

theorem scan_snd_of_last_anchor (cfg : Config) (bre_m bre_ins : Option Regexp)
    (pre post : List String) (x : String)
    (hx : match_found cfg bre_m x = false)
    (hpost : ∀ l ∈ post, match_found cfg bre_m l = false)
    (hax : ins_found bre_ins x = true)
    (hapost : ∀ l ∈ post, ins_found bre_ins l = false) :
    (scan cfg bre_m bre_ins (pre ++ x :: post)).2 =
      anchor_idx cfg pre.length (scan_from cfg bre_m bre_ins pre 0 (-1, -1)).2 := by
  unfold scan
  rw [scan_from_append, scan_from, scan_from_of_no_hit _ _ _ _ _ _ hpost hapost]
  simp [scan_step, hx, hax]

/-! ## The decision -/

theorem insert_at (slice : List String) (p : Nat) (elements : List String)
    (hp : p ≤ slice.length) :
    insert slice (p : Int) elements = .ok (slice.take p ++ (elements ++ slice.drop p)) := by
  unfold insert
  have h : 0 ≤ (p : Int) ∧ (p : Int) ≤ (slice.length : Int) := ⟨by omega, by omega⟩
  rw [if_pos h, Int.toNat_ofNat]

theorem reconcile_found (cfg : Config) (pre post : List String) (x : String) (insert_idx : Int) :
    reconcile cfg (pre ++ x :: post) (pre.length : Int) insert_idx =
      .ok (pre ++ cfg.line :: post, x != cfg.line) := by
  unfold reconcile
  have h1 : ((pre.length : Nat) : Int) ≠ -1 := by omega
  have h2 : (0 : Int) ≤ (pre.length : Nat) := by omega
  have h3 : (pre ++ x :: post)[pre.length]? = some x := by
    rw [List.getElem?_append_right (le_refl _)]
    simp
  rw [if_pos h1, if_pos h2, Int.toNat_ofNat, h3]
  simp

theorem reconcile_insert (cfg : Config) (b_lines : List String) (p : Nat)
    (hp : p ≤ b_lines.length) :
    reconcile cfg b_lines (-1) (p : Int) =
      .ok (b_lines.take p ++ ([cfg.line] ++ b_lines.drop p), true) := by
  unfold reconcile
  have h1 : ((p : Nat) : Int) ≠ -1 := by omega
  rw [if_neg (by simp), if_pos h1, insert_at _ _ _ hp]

theorem reconcile_bof (cfg : Config) (b_lines : List String)
    (hbof : cfg.insert_before = "BOF" ∨ cfg.insert_after = "BOF") :
    reconcile cfg b_lines (-1) (-1) = .ok ([cfg.line] ++ b_lines, true) := by
  unfold reconcile
  rw [if_neg (by simp), if_neg (by simp), if_pos hbof]

theorem reconcile_eof_blank (cfg : Config) (front : List String)
    (hbof : ¬ (cfg.insert_before = "BOF" ∨ cfg.insert_after = "BOF")) :
    reconcile cfg (front ++ [""]) (-1) (-1) = .ok (front ++ [cfg.line, ""], true) := by
  unfold reconcile
  have hlast : (front ++ [""]).length > 0 ∧
      (front ++ [""])[(front ++ [""]).length - 1]? = some "" := by
    simp
  have hpos : (((front ++ [""]).length : Nat) : Int) - 1 = ((front.length : Nat) : Int) := by
    simp
  rw [if_neg (by simp), if_neg (by simp), if_neg hbof, if_pos hlast, hpos,
    insert_at _ _ _ (by simp)]
  simp

theorem reconcile_eof (cfg : Config) (b_lines : List String)
    (hbof : ¬ (cfg.insert_before = "BOF" ∨ cfg.insert_after = "BOF"))
    (hlast : b_lines = [] ∨ b_lines.getLast? ≠ some "") :
    reconcile cfg b_lines (-1) (-1) = .ok (b_lines ++ [cfg.line], true) := by
  unfold reconcile
  have hno : ¬ (b_lines.length > 0 ∧ b_lines[b_lines.length - 1]? = some "") := by
    rintro ⟨hlen, hget⟩
    rcases hlast with h | h
    · simp [h] at hlen
    · exact h (by rw [List.getLast?_eq_getElem?]; exact hget)
  rw [if_neg (by simp), if_neg (by simp), if_neg hbof, if_neg hno]

/-! ## `do_present_lines` on a decomposed line sequence -/

theorem present_of_patterns (compile : Compiler) (cfg : Config) (bre_m bre_ins : Option Regexp)
    (b_lines : List String)
    (hm : compile_bre_m compile cfg = .ok bre_m)
    (hins : compile_bre_ins compile cfg = .ok bre_ins) :
    do_present_lines compile cfg b_lines =
      reconcile cfg b_lines (scan cfg bre_m bre_ins b_lines).1 (scan cfg bre_m bre_ins b_lines).2 := by
  unfold do_present_lines
  rw [hm, hins]

theorem present_found (compile : Compiler) (cfg : Config) (bre_m bre_ins : Option Regexp)
    (pre post : List String) (x : String)
    (hm : compile_bre_m compile cfg = .ok bre_m)
    (hins : compile_bre_ins compile cfg = .ok bre_ins)
    (hx : match_found cfg bre_m x = true)
    (hpost : ∀ l ∈ post, match_found cfg bre_m l = false) :
    do_present_lines compile cfg (pre ++ x :: post) =
      .ok (pre ++ cfg.line :: post, x != cfg.line) := by
  rw [present_of_patterns compile cfg bre_m bre_ins _ hm hins,
    scan_fst_of_last_match cfg bre_m bre_ins pre post x hx hpost, reconcile_found]

theorem present_not_found (compile : Compiler) (cfg : Config) (bre_m bre_ins : Option Regexp)
    (b_lines : List String)
    (hm : compile_bre_m compile cfg = .ok bre_m)
    (hins : compile_bre_ins compile cfg = .ok bre_ins)
    (hnone : ∀ l ∈ b_lines, match_found cfg bre_m l = false) :
    ∃ p : Nat, p ≤ b_lines.length ∧
      do_present_lines compile cfg b_lines =
        .ok (b_lines.take p ++ cfg.line :: b_lines.drop p, true) := by
  rw [present_of_patterns compile cfg bre_m bre_ins _ hm hins,
    scan_fst_of_no_match cfg bre_m bre_ins b_lines hnone]
  rcases scan_snd_bounds cfg bre_m bre_ins b_lines with h | ⟨h0, hlen⟩
  · rw [h]
    by_cases hbof : cfg.insert_before = "BOF" ∨ cfg.insert_after = "BOF"
    · exact ⟨0, Nat.zero_le _, by rw [reconcile_bof cfg b_lines hbof]; simp⟩
    · by_cases hlast : b_lines = [] ∨ b_lines.getLast? ≠ some ""
      · exact ⟨b_lines.length, le_refl _, by rw [reconcile_eof cfg b_lines hbof hlast]; simp⟩
      · push_neg at hlast
        obtain ⟨hne, hl⟩ := hlast
        obtain ⟨front, rfl⟩ : ∃ front, b_lines = front ++ [""] := by
          refine ⟨b_lines.dropLast, ?_⟩
          have := List.dropLast_append_getLast? "" (by simpa using hl)
          exact this.symm
        exact ⟨front.length, by simp, by rw [reconcile_eof_blank cfg front hbof]; simp⟩
  · obtain ⟨p, hp⟩ := Int.eq_ofNat_of_zero_le h0
    rw [hp] at hlen ⊢
    have hp' : p ≤ b_lines.length := by omega
    exact ⟨p, hp', by rw [reconcile_insert cfg b_lines p hp']; simp⟩

theorem exists_last_match (p : String → Bool) (b_lines : List String)
    (h : ∃ l ∈ b_lines, p l = true) :
    ∃ pre x post, b_lines = pre ++ x :: post ∧ p x = true ∧ ∀ l ∈ post, p l = false := by
  induction b_lines with
  | nil => simp at h
  | cons a rest ih =>
    by_cases hrest : ∃ l ∈ rest, p l = true
    · obtain ⟨pre, x, post, heq, hx, hpost⟩ := ih hrest
      exact ⟨a :: pre, x, post, by rw [heq]; rfl, hx, hpost⟩
    · push_neg at hrest
      obtain ⟨l, hl, hpl⟩ := h
      rcases List.mem_cons.1 hl with rfl | hmem
      · exact ⟨[], l, rest, rfl, hpl, fun y hy => by simpa using hrest y hy⟩
      · exact absurd hpl (hrest l hmem)

/-! ## Index form of the decompositions -/

theorem split_at_index (b_lines : List String) (i : Nat) (hi : i < b_lines.length) :
    b_lines = b_lines.take i ++ b_lines[i] :: b_lines.drop (i + 1) := by
  rw [← List.drop_eq_getElem_cons hi, List.take_append_drop]

theorem forall_mem_drop_succ (p : String → Bool) (b_lines : List String) (i : Nat)
    (h : ∀ j (hj : j < b_lines.length), i < j → p b_lines[j] = false) :
    ∀ l ∈ b_lines.drop (i + 1), p l = false := by
  intro l hl
  obtain ⟨k, hk, rfl⟩ := List.mem_iff_getElem.1 hl
  rw [List.getElem_drop]
  exact h _ _ (by omega)

theorem length_take_of_lt (b_lines : List String) (i : Nat) (hi : i < b_lines.length) :
    (b_lines.take i).length = i := by
  rw [List.length_take]
  omega

theorem anchor_idx_after (cfg : Config) (lineno prev : Int)
    (ha : cfg.insert_after ≠ "") (hb : cfg.insert_before = "") :
    anchor_idx cfg lineno prev = lineno + 1 := by
  simp [anchor_idx, ha, hb]

theorem anchor_idx_before (cfg : Config) (lineno prev : Int) (hb : cfg.insert_before ≠ "") :
    anchor_idx cfg lineno prev = lineno := by
  simp [anchor_idx, hb]

/-- With no presence match anywhere and the last anchor match at index `i`, the
scan leaves `line_idx = -1` and `insert_idx = anchor_idx cfg i _`. -/
theorem present_anchor (compile : Compiler) (cfg : Config) (bre_m bre_ins : Option Regexp)
    (b_lines : List String) (i : Nat) (pos : Nat)
    (hm : compile_bre_m compile cfg = .ok bre_m)
    (hins : compile_bre_ins compile cfg = .ok bre_ins)
    (hnone : ∀ l ∈ b_lines, match_found cfg bre_m l = false)
    (hi : i < b_lines.length)
    (hanchor : ins_found bre_ins b_lines[i] = true)
    (hlast : ∀ j (hj : j < b_lines.length), i < j → ins_found bre_ins b_lines[j] = false)
    (hpos : ∀ prev : Int, anchor_idx cfg i prev = pos) (hle : pos ≤ b_lines.length) :
    do_present_lines compile cfg b_lines =
      .ok (b_lines.take pos ++ ([cfg.line] ++ b_lines.drop pos), true) := by
  rw [present_of_patterns compile cfg bre_m bre_ins _ hm hins,
    scan_fst_of_no_match cfg bre_m bre_ins b_lines hnone]
  have hsnd : (scan cfg bre_m bre_ins b_lines).2 = (pos : Int) := by
    have hsplit := split_at_index b_lines i hi
    have hx : match_found cfg bre_m b_lines[i] = false := hnone _ (List.getElem_mem _)
    have hpost : ∀ l ∈ b_lines.drop (i + 1), match_found cfg bre_m l = false :=
      fun l hl => hnone l (List.mem_of_mem_drop hl)
    have hapost := forall_mem_drop_succ (ins_found bre_ins) b_lines i hlast
    have := scan_snd_of_last_anchor cfg bre_m bre_ins (b_lines.take i) (b_lines.drop (i + 1))
      b_lines[i] hx hpost hanchor hapost
    rw [← hsplit, length_take_of_lt b_lines i hi, hpos] at this
    exact this
  rw [hsnd, reconcile_insert cfg b_lines pos hle]

/-! ## `strings.Join` -/

theorem Join_cons_of_ne_nil (e : String) (rest : List String) (sep : String) (h : rest ≠ []) :
    Join (e :: rest) sep = e ++ sep ++ Join rest sep := by
  cases rest with
  | nil => exact absurd rfl h
  | cons a as => rfl

theorem Join_insert_before_blank (front : List String) (line sep : String) :
    Join (front ++ [line, ""]) sep = Join (front ++ [""]) sep ++ line ++ sep := by
  induction front with
  | nil =>
    show line ++ sep ++ "" = "" ++ line ++ sep
    rw [String.append_empty, String.empty_append]
  | cons a rest ih =>
    rw [List.cons_append, List.cons_append, Join_cons_of_ne_nil _ _ _ (by simp),
      Join_cons_of_ne_nil _ _ _ (by simp), ih]
    simp only [String.append_assoc]

/-! ## The loops of `do_absent` -/

theorem keep_unequal_eq (line : String) (b_lines keep : List String) :
    keep_unequal line b_lines keep = keep ++ b_lines.filter (fun l => l != line) := by
  induction b_lines generalizing keep with
  | nil => simp [keep_unequal]
  | cons l rest ih =>
    rw [keep_unequal, ih]
    by_cases h : (l != line) = true
    · simp [h, List.filter_cons]
    · simp [h, List.filter_cons]

theorem keep_matching_eq (bre_c : Regexp) (b_lines keep : List String) :
    keep_matching bre_c b_lines keep = keep ++ b_lines.filter (fun l => bre_c.MatchString l) := by
  induction b_lines generalizing keep with
  | nil => simp [keep_matching]
  | cons l rest ih =>
    rw [keep_matching, ih]
    by_cases h : bre_c.MatchString l = true
    · simp [h, List.filter_cons]
    · simp [h, List.filter_cons]

/-! ## Present mode: the target line in the result -/

/-- C1 as stated fails: on the lines `["x", "x"]` with target line `"x"` and
default flags, present mode leaves both lines in place, so the result holds the
target line twice. -/
theorem present_keeps_duplicates :
    do_present_lines fragmentCompile { line := "x" } ["x", "x"] = .ok (["x", "x"], false) ∧
      List.count "x" ["x", "x"] = 2 :=
  ⟨rfl, rfl⟩

/-- C1, amended: when the patterns compile, present mode returns a line
sequence that contains the target line at least once, and exactly once when the
initial sequence did not contain it. -/
theorem present_contains_line (compile : Compiler) (cfg : Config)
    (bre_m bre_ins : Option Regexp) (b_lines : List String)
    (hm : compile_bre_m compile cfg = .ok bre_m)
    (hins : compile_bre_ins compile cfg = .ok bre_ins) :
    ∃ result changed, do_present_lines compile cfg b_lines = .ok (result, changed) ∧
      1 ≤ result.count cfg.line ∧ (cfg.line ∉ b_lines → result.count cfg.line = 1) := by
  by_cases h : ∃ l ∈ b_lines, match_found cfg bre_m l = true
  · obtain ⟨pre, x, post, rfl, hx, hpost⟩ := exists_last_match (match_found cfg bre_m) b_lines h
    refine ⟨pre ++ cfg.line :: post, x != cfg.line,
      present_found compile cfg bre_m bre_ins pre post x hm hins hx hpost, ?_, ?_⟩
    · simp only [List.count_append, List.count_cons_self]
      omega
    · intro hnot
      have hpre : cfg.line ∉ pre := fun hmem => hnot (List.mem_append_left _ hmem)
      have hpo : cfg.line ∉ post :=
        fun hmem => hnot (List.mem_append_right _ (List.mem_cons_of_mem _ hmem))
      simp [List.count_cons, List.count_eq_zero_of_not_mem hpre,
        List.count_eq_zero_of_not_mem hpo]
  · have hnone : ∀ l ∈ b_lines, match_found cfg bre_m l = false := by
      intro l hl
      by_contra hc
      exact h ⟨l, hl, by simpa using hc⟩
    obtain ⟨p, _, hres⟩ := present_not_found compile cfg bre_m bre_ins b_lines hm hins hnone
    refine ⟨_, true, hres, ?_, ?_⟩
    · simp only [List.count_append, List.count_cons_self]
      omega
    · intro hnot
      have hpre : cfg.line ∉ b_lines.take p := fun hmem => hnot (List.mem_of_mem_take hmem)
      have hpo : cfg.line ∉ b_lines.drop p := fun hmem => hnot (List.mem_of_mem_drop hmem)
      simp [List.count_cons, List.count_eq_zero_of_not_mem hpre,
        List.count_eq_zero_of_not_mem hpo]

/-- Witness of C1 amended: target `x1`, regexp `^x`, lines `["a", "x0", "b"]`. -/
theorem present_contains_line_witness :
    ∃ bre_m bre_ins,
      compile_bre_m fragmentCompile { line := "x1", regexp := "^x" } = .ok bre_m ∧
      compile_bre_ins fragmentCompile { line := "x1", regexp := "^x" } = .ok bre_ins ∧
      ∃ result changed,
        do_present_lines fragmentCompile { line := "x1", regexp := "^x" } ["a", "x0", "b"] =
          .ok (result, changed) ∧
        1 ≤ result.count "x1" ∧ ("x1" ∉ ["a", "x0", "b"] → result.count "x1" = 1) :=
  ⟨_, _, rfl, rfl,
    present_contains_line fragmentCompile { line := "x1", regexp := "^x" } _ _
      ["a", "x0", "b"] rfl rfl⟩

/-! ## Present mode: a second run -/

theorem second_run_on_result (compile : Compiler) (cfg : Config)
    (bre_m bre_ins : Option Regexp) (b_lines : List String)
    (hm : compile_bre_m compile cfg = .ok bre_m)
    (hins : compile_bre_ins compile cfg = .ok bre_ins)
    (hline : cfg.regexp = "" ∨ match_found cfg bre_m cfg.line = true) :
    ∃ result changed, do_present_lines compile cfg b_lines = .ok (result, changed) ∧
      do_present_lines compile cfg result = .ok (result, false) := by
  have hself : match_found cfg bre_m cfg.line = true := by
    rcases hline with h | h
    · simp [match_found, h]
    · exact h
  have hsame : (cfg.line != cfg.line) = false := by simp
  by_cases h : ∃ l ∈ b_lines, match_found cfg bre_m l = true
  · obtain ⟨pre, x, post, rfl, hx, hpost⟩ := exists_last_match (match_found cfg bre_m) b_lines h
    refine ⟨pre ++ cfg.line :: post, x != cfg.line,
      present_found compile cfg bre_m bre_ins pre post x hm hins hx hpost, ?_⟩
    rw [present_found compile cfg bre_m bre_ins pre post cfg.line hm hins hself hpost, hsame]
  · have hnone : ∀ l ∈ b_lines, match_found cfg bre_m l = false := by
      intro l hl
      by_contra hc
      exact h ⟨l, hl, by simpa using hc⟩
    obtain ⟨p, _, hres⟩ := present_not_found compile cfg bre_m bre_ins b_lines hm hins hnone
    refine ⟨_, true, hres, ?_⟩
    rw [present_found compile cfg bre_m bre_ins (b_lines.take p) (b_lines.drop p) cfg.line
      hm hins hself (fun l hl => hnone l (List.mem_of_mem_drop hl)), hsame]

/-! ## Present mode: replacing the last match -/

/-- C3: when the patterns compile and `i` is the greatest index whose line
satisfies the presence predicate, present mode returns the original sequence
with element `i` set to the target line (all other elements and the length
unchanged), whatever the insert flags, and `changed` tells whether the original
element `i` differed from the target line. -/
theorem present_replaces_last_match (compile : Compiler) (cfg : Config)
    (bre_m bre_ins : Option Regexp) (b_lines : List String) (i : Nat)
    (hm : compile_bre_m compile cfg = .ok bre_m)
    (hins : compile_bre_ins compile cfg = .ok bre_ins)
    (hi : i < b_lines.length)
    (hmatch : match_found cfg bre_m b_lines[i] = true)
    (hlast : ∀ j (hj : j < b_lines.length), i < j → match_found cfg bre_m b_lines[j] = false) :
    do_present_lines compile cfg b_lines =
        .ok (b_lines.set i cfg.line, b_lines[i] != cfg.line) ∧
      (b_lines.set i cfg.line).length = b_lines.length ∧
      (b_lines.set i cfg.line)[i]? = some cfg.line ∧
      (∀ j, j ≠ i → (b_lines.set i cfg.line)[j]? = b_lines[j]?) ∧
      ((b_lines[i] != cfg.line) = true ↔ b_lines[i] ≠ cfg.line) := by
  refine ⟨?_, List.length_set _ _ _, ?_, ?_, by simp⟩
  · have hpost := forall_mem_drop_succ (match_found cfg bre_m) b_lines i hlast
    have hrun := present_found compile cfg bre_m bre_ins (b_lines.take i)
      (b_lines.drop (i + 1)) b_lines[i] hm hins hmatch hpost
    rw [← split_at_index b_lines i hi] at hrun
    rw [hrun, List.set_eq_take_append_cons_drop, if_pos hi]
  · simp [hi]
  · intro j hj
    exact List.getElem?_set_ne (Ne.symm hj)

/-- Witness of C3: regexp `^x`, an insert-after pattern set as well, lines
`["x0", "b", "x2", "c"]`: only index 2 is rewritten. -/
theorem present_replaces_last_match_witness :
    do_present_lines fragmentCompile { line := "x1", regexp := "^x", insert_after := "b" }
        ["x0", "b", "x2", "c"] = .ok (["x0", "b", "x1", "c"], true) :=
  (present_replaces_last_match fragmentCompile
    { line := "x1", regexp := "^x", insert_after := "b" } _ _ ["x0", "b", "x2", "c"] 2
    rfl rfl (by decide) rfl
    (fun j hj hlt => by
      have h3 : j = 3 := by
        simp only [List.length_cons, List.length_nil] at hj
        omega
      subst h3
      rfl)).1

/-! ## Present mode: insertion at an anchor -/

/-- C4: with `insert_after` a pattern (not empty, `BOF` or `EOF`) that compiles,
`insert_before` unset, no line satisfying the presence predicate and `i` the
greatest index whose line matches the pattern, present mode returns
`lines[0..i] ++ [line] ++ lines[i+1..]` and reports a change. -/
theorem present_insert_after_last_anchor (compile : Compiler) (cfg : Config)
    (bre_m : Option Regexp) (anchor : Regexp) (b_lines : List String) (i : Nat)
    (hm : compile_bre_m compile cfg = .ok bre_m)
    (hafter : cfg.insert_after ≠ "" ∧ cfg.insert_after ≠ "BOF" ∧ cfg.insert_after ≠ "EOF")
    (hbefore : cfg.insert_before = "")
    (hc : compile cfg.insert_after = .ok anchor)
    (hnone : ∀ l ∈ b_lines, match_found cfg bre_m l = false)
    (hi : i < b_lines.length)
    (hanchor : anchor.MatchString b_lines[i] = true)
    (hlast : ∀ j (hj : j < b_lines.length), i < j → anchor.MatchString b_lines[j] = false) :
    do_present_lines compile cfg b_lines =
      .ok (b_lines.take (i + 1) ++ ([cfg.line] ++ b_lines.drop (i + 1)), true) := by
  have hins : compile_bre_ins compile cfg = .ok (some anchor) := by
    unfold compile_bre_ins
    rw [if_pos hafter, hc]
  exact present_anchor compile cfg bre_m (some anchor) b_lines i (i + 1) hm hins hnone hi
    hanchor hlast
    (fun prev => by rw [anchor_idx_after cfg _ _ hafter.1 hbefore]; push_cast; rfl)
    (by omega)

/-- Witness of C4, the scenario of the specification: lines `["a", "b", "a"]`,
anchor `^a$`: the insertion index is 3 and the line lands at the end. -/
theorem present_insert_after_last_anchor_witness :
    do_present_lines fragmentCompile { line := "x", insert_after := "^a$" } ["a", "b", "a"] =
      .ok (["a", "b", "a", "x"], true) :=
  present_insert_after_last_anchor fragmentCompile { line := "x", insert_after := "^a$" }
    none ⟨fun s => s.toList == ['a']⟩ ["a", "b", "a"] 2 rfl (by decide) rfl rfl
    (by decide) (by decide) rfl
    (fun j hj hlt => by
      simp only [List.length_cons, List.length_nil] at hj
      omega)

/-- C5: with `insert_before` a pattern (not empty or `BOF`) that compiles,
`insert_after` at its default `EOF`, no line satisfying the presence predicate
and `i` the greatest index whose line matches the pattern, present mode returns
`lines[0..i-1] ++ [line] ++ lines[i..]` and reports a change. -/
theorem present_insert_before_last_anchor (compile : Compiler) (cfg : Config)
    (bre_m : Option Regexp) (anchor : Regexp) (b_lines : List String) (i : Nat)
    (hm : compile_bre_m compile cfg = .ok bre_m)
    (hbefore : cfg.insert_before ≠ "" ∧ cfg.insert_before ≠ "BOF")
    (hafter : cfg.insert_after = "EOF")
    (hc : compile cfg.insert_before = .ok anchor)
    (hnone : ∀ l ∈ b_lines, match_found cfg bre_m l = false)
    (hi : i < b_lines.length)
    (hanchor : anchor.MatchString b_lines[i] = true)
    (hlast : ∀ j (hj : j < b_lines.length), i < j → anchor.MatchString b_lines[j] = false) :
    do_present_lines compile cfg b_lines =
      .ok (b_lines.take i ++ ([cfg.line] ++ b_lines.drop i), true) := by
  have hins : compile_bre_ins compile cfg = .ok (some anchor) := by
    unfold compile_bre_ins
    rw [if_neg (by rw [hafter]; simp), if_pos hbefore, hc]
  exact present_anchor compile cfg bre_m (some anchor) b_lines i i hm hins hnone hi
    hanchor hlast (fun prev => anchor_idx_before cfg _ _ hbefore.1) (by omega)

/-- Witness of C5: anchor `b` before, lines `["a", "b", "c", "b", "d"]`: the
line goes in front of index 3. -/
theorem present_insert_before_last_anchor_witness :
    do_present_lines fragmentCompile { line := "x", insert_before := "b" }
        ["a", "b", "c", "b", "d"] = .ok (["a", "b", "c", "x", "b", "d"], true) :=
  present_insert_before_last_anchor fragmentCompile { line := "x", insert_before := "b" }
    none ⟨fun s => occursIn ['b'] s.toList⟩ ["a", "b", "c", "b", "d"] 3 rfl (by decide) rfl rfl
    (by decide) (by decide) rfl
    (fun j hj hlt => by
      have h4 : j = 4 := by
        simp only [List.length_cons, List.length_nil] at hj
        omega
      subst h4
      rfl)

/-- C6 fails on the code: with `insert_after = "a"` and `insert_before = "b"`,
both patterns, the anchor compiled is `a` (index 0 of `["a", "b"]`), yet the
line is inserted at index 0, before that line, not at index 1 after it. -/
theorem present_both_anchors_inserts_before :
    do_present_lines fragmentCompile
        { line := "x", insert_after := "a", insert_before := "b" } ["a", "b"] =
      .ok (["x", "a", "b"], true) :=
  rfl

/-! ## Present mode: no match and no anchor -/

/-- C7: when the patterns compile, no line satisfies the presence predicate, no
line matches the anchor (or none is configured), neither insert flag is `BOF`,
and the sequence is empty or does not end in the empty string, present mode
returns `lines ++ [line]` and reports a change. -/
theorem present_appends_at_eof (compile : Compiler) (cfg : Config)
    (bre_m bre_ins : Option Regexp) (b_lines : List String)
    (hm : compile_bre_m compile cfg = .ok bre_m)
    (hins : compile_bre_ins compile cfg = .ok bre_ins)
    (hnone : ∀ l ∈ b_lines, match_found cfg bre_m l = false)
    (hanchor : ∀ l ∈ b_lines, ins_found bre_ins l = false)
    (hbefore : cfg.insert_before ≠ "BOF") (hafter : cfg.insert_after ≠ "BOF")
    (hlast : b_lines = [] ∨ b_lines.getLast? ≠ some "") :
    do_present_lines compile cfg b_lines = .ok (b_lines ++ [cfg.line], true) := by
  rw [present_of_patterns compile cfg bre_m bre_ins _ hm hins,
    scan_of_no_hit cfg bre_m bre_ins b_lines hnone hanchor]
  exact reconcile_eof cfg b_lines (by rintro (h | h) <;> contradiction) hlast

/-- Witness of C7: an insert-after pattern `^z` with no match falls back to the
end of the file. -/
theorem present_appends_at_eof_witness :
    do_present_lines fragmentCompile { line := "x", insert_after := "^z" } ["a", "b"] =
      .ok (["a", "b", "x"], true) :=
  present_appends_at_eof fragmentCompile { line := "x", insert_after := "^z" } _ _ ["a", "b"]
    rfl rfl (by decide) (by decide) (by decide) (by decide) (Or.inr (by decide))

theorem blank_tail_lines (compile : Compiler) (cfg : Config)
    (bre_m bre_ins : Option Regexp) (b_lines : List String)
    (hm : compile_bre_m compile cfg = .ok bre_m)
    (hins : compile_bre_ins compile cfg = .ok bre_ins)
    (hnone : ∀ l ∈ b_lines, match_found cfg bre_m l = false)
    (hanchor : ∀ l ∈ b_lines, ins_found bre_ins l = false)
    (hbefore : cfg.insert_before ≠ "BOF") (hafter : cfg.insert_after ≠ "BOF")
    (hlast : b_lines.getLast? = some "") :
    do_present_lines compile cfg b_lines = .ok (b_lines.dropLast ++ [cfg.line, ""], true) ∧
      written_content (b_lines.dropLast ++ [cfg.line, ""]) =
        written_content b_lines ++ cfg.line ++ "\n" := by
  have hsplit : b_lines = b_lines.dropLast ++ [""] :=
    (List.dropLast_append_getLast? "" (by simpa using hlast)).symm
  constructor
  · rw [present_of_patterns compile cfg bre_m bre_ins _ hm hins,
      scan_of_no_hit cfg bre_m bre_ins b_lines hnone hanchor]
    have := reconcile_eof_blank cfg b_lines.dropLast (by rintro (h | h) <;> contradiction)
    rw [← hsplit] at this
    exact this
  · unfold written_content
    rw [Join_insert_before_blank]
    rw [← hsplit]

/-- C9: when the patterns compile, `insert_before` or `insert_after` is `BOF`,
no line satisfies the presence predicate and no line matches the anchor,
present mode returns the target line followed by the original lines in their
order and reports a change. -/
theorem present_prepends_at_bof (compile : Compiler) (cfg : Config)
    (bre_m bre_ins : Option Regexp) (b_lines : List String)
    (hm : compile_bre_m compile cfg = .ok bre_m)
    (hins : compile_bre_ins compile cfg = .ok bre_ins)
    (hbof : cfg.insert_before = "BOF" ∨ cfg.insert_after = "BOF")
    (hnone : ∀ l ∈ b_lines, match_found cfg bre_m l = false)
    (hanchor : ∀ l ∈ b_lines, ins_found bre_ins l = false) :
    do_present_lines compile cfg b_lines = .ok (cfg.line :: b_lines, true) := by
  rw [present_of_patterns compile cfg bre_m bre_ins _ hm hins,
    scan_of_no_hit cfg bre_m bre_ins b_lines hnone hanchor, reconcile_bof cfg b_lines hbof]
  rfl

/-- Witness of C9, the scenario of the specification: `insert_before = "BOF"`
and an empty line sequence give the target line as sole content. -/
theorem present_prepends_at_bof_witness :
    do_present_lines fragmentCompile { line := "x", insert_before := "BOF" } [] =
      .ok (["x"], true) :=
  present_prepends_at_bof fragmentCompile { line := "x", insert_before := "BOF" } _ _ []
    rfl rfl (Or.inl rfl) (by decide) (by decide)

/-! ## Absent mode without a regexp -/

/-- C10: in absent mode with no regexp, the kept sequence is the original
sequence without the elements equal to the target line, the others in their
original order: it is the filter of the lines by `l != line`, a sublist of the
original whose members are exactly the original lines that differ from the
target line. -/
theorem absent_removes_equal_lines (compile : Compiler) (cfg : Config) (b_lines : List String)
    (hre : cfg.regexp = "") :
    do_absent_keep compile cfg b_lines = .ok (b_lines.filter (fun l => l != cfg.line)) ∧
      (b_lines.filter (fun l => l != cfg.line)).Sublist b_lines ∧
      ∀ l, l ∈ b_lines.filter (fun l => l != cfg.line) ↔ l ∈ b_lines ∧ l ≠ cfg.line := by
  refine ⟨?_, List.filter_sublist _, fun l => by simp⟩
  unfold do_absent_keep
  rw [if_neg (by simp [hre]), keep_unequal_eq, List.nil_append]

/-- Witness of C10, the scenario of the specification: target `foo` on
`["foo", "bar", "foo"]` keeps `["bar"]`. -/
theorem absent_removes_equal_lines_witness :
    do_absent_keep fragmentCompile { line := "foo" } ["foo", "bar", "foo"] = .ok ["bar"] :=
  (absent_removes_equal_lines fragmentCompile { line := "foo" } ["foo", "bar", "foo"] rfl).1

/-! ## Absent mode with a regexp -/

/-- C11 fails on the code: with regexp `foo` on the lines `["foo", "bar"]` the
kept sequence is `["foo"]`: the line matching the pattern stays and the line not
matching it is removed. -/
theorem absent_regexp_keeps_the_match :
    do_absent_keep fragmentCompile { line := "x", regexp := "foo" } ["foo", "bar"] =
      .ok ["foo"] :=
  rfl

/-- C16: in absent mode with a regexp that compiles, the kept sequence is the
filter of the lines by the pattern: a sublist of the original, in order, whose
members are exactly the original lines that match; a line that does not match
is not kept. -/
theorem absent_keeps_matching_lines (compile : Compiler) (cfg : Config) (bre_c : Regexp)
    (b_lines : List String) (hre : cfg.regexp ≠ "") (hc : compile cfg.regexp = .ok bre_c) :
    do_absent_keep compile cfg b_lines =
        .ok (b_lines.filter (fun l => bre_c.MatchString l)) ∧
      (b_lines.filter (fun l => bre_c.MatchString l)).Sublist b_lines ∧
      (∀ l, l ∈ b_lines.filter (fun l => bre_c.MatchString l) ↔
        l ∈ b_lines ∧ bre_c.MatchString l = true) ∧
      ∀ l, bre_c.MatchString l = false → l ∉ b_lines.filter (fun l => bre_c.MatchString l) := by
  refine ⟨?_, List.filter_sublist _, fun l => by simp, fun l hl => by simp [hl]⟩
  unfold do_absent_keep
  rw [if_pos hre, hc]
  simp only [keep_matching_eq, List.nil_append]

/-- Witness of C16: regexp `foo` on `["foo", "bar", "seafood"]` keeps the two
lines that contain `foo`. -/
theorem absent_keeps_matching_lines_witness :
    do_absent_keep fragmentCompile { line := "x", regexp := "foo" } ["foo", "bar", "seafood"] =
      .ok ["foo", "seafood"] :=
  (absent_keeps_matching_lines fragmentCompile { line := "x", regexp := "foo" }
    ⟨fun s => occursIn ['f', 'o', 'o'] s.toList⟩ ["foo", "bar", "seafood"] (by decide) rfl).1

/-! ## Present mode with its effects -/

theorem present_at_last_match (compile : Compiler) (cfg : Config)
    (bre_m bre_ins : Option Regexp) (b_lines : List String) (i : Nat)
    (hm : compile_bre_m compile cfg = .ok bre_m)
    (hins : compile_bre_ins compile cfg = .ok bre_ins)
    (hi : i < b_lines.length)
    (hmatch : match_found cfg bre_m b_lines[i] = true)
    (hlast : ∀ j (hj : j < b_lines.length), i < j → match_found cfg bre_m b_lines[j] = false) :
    do_present_lines compile cfg b_lines =
      .ok (b_lines.set i cfg.line, b_lines[i] != cfg.line) := by
  have hpost := forall_mem_drop_succ (match_found cfg bre_m) b_lines i hlast
  have hrun := present_found compile cfg bre_m bre_ins (b_lines.take i)
    (b_lines.drop (i + 1)) b_lines[i] hm hins hmatch hpost
  rw [← split_at_index b_lines i hi] at hrun
  rw [hrun, List.set_eq_take_append_cons_drop, if_pos hi]

theorem do_present_of_read (sys : Sys) (cfg : Config) (w : World)
    (content : String) (hfile : w.files cfg.dest = some content) (hread : sys.read_err = none) :
    do_present_read sys cfg w = (w, .ok (Split content '\n')) := by
  unfold do_present_read
  rw [hfile, hread]

/-- C12: when the destination exists and is read, the patterns compile, and the
last line satisfying the presence predicate equals the target line, the
reconciliation returns the same line sequence with `changed = false`, and
`do_present` returns `nil` in the state it started from: no file is touched, no
call to `backup_local` or `write_changes` is recorded, nothing is printed. -/
theorem present_unchanged_has_no_effect (compile : Compiler) (sys : Sys) (cfg : Config)
    (w : World) (content : String) (bre_m bre_ins : Option Regexp) (i : Nat)
    (hfile : w.files cfg.dest = some content) (hread : sys.read_err = none)
    (hm : compile_bre_m compile cfg = .ok bre_m)
    (hins : compile_bre_ins compile cfg = .ok bre_ins)
    (hi : i < (Split content '\n').length)
    (hmatch : match_found cfg bre_m (Split content '\n')[i] = true)
    (hlast : ∀ j (hj : j < (Split content '\n').length), i < j →
      match_found cfg bre_m (Split content '\n')[j] = false)
    (heq : (Split content '\n')[i] = cfg.line) :
    do_present_lines compile cfg (Split content '\n') = .ok (Split content '\n', false) ∧
      do_present compile sys cfg w = (w, none) := by
  have hrun := present_at_last_match compile cfg bre_m bre_ins _ i hm hins hi hmatch hlast
  have hset : (Split content '\n').set i cfg.line = Split content '\n' := by
    rw [List.set_eq_take_append_cons_drop, if_pos hi, ← heq]
    exact (split_at_index _ i hi).symm
  have hsame : ((Split content '\n')[i] != cfg.line) = false := by simp [heq]
  rw [hset, hsame] at hrun
  refine ⟨hrun, ?_⟩
  unfold do_present
  rw [do_present_of_read sys cfg w content hfile hread]
  simp only [hrun]
  rfl

/-- Witness of C12: the file `d` holds the lines `a`, `x1`, `b`; target `x1` with regexp
`^x` already stands at index 1. -/
theorem present_unchanged_has_no_effect_witness :
    do_present_lines fragmentCompile { line := "x1", dest := "d", regexp := "^x", backup := true }
        (Split "a\nx1\nb" '\n') = .ok (Split "a\nx1\nb" '\n', false) ∧
      do_present fragmentCompile {} { line := "x1", dest := "d", regexp := "^x", backup := true }
        (World.single "d" "a\nx1\nb") = (World.single "d" "a\nx1\nb", none) :=
  present_unchanged_has_no_effect fragmentCompile {}
    { line := "x1", dest := "d", regexp := "^x", backup := true }
    (World.single "d" "a\nx1\nb") "a\nx1\nb" _ _ 1 rfl rfl rfl rfl (by decide) rfl
    (fun j hj hlt => by
      have h2 : j = 2 := by
        have : j < 3 := hj
        omega
      subst h2
      rfl)
    rfl

/-! ## Errors and the exit status -/

/-- C13 fails on the code: with the destination missing and `create` unset,
`do_present` returns the file-not-found error, and `main` still ends with exit
status 0. -/
theorem main_exit_zero_on_error :
    (do_present fragmentCompile {} { line := "x", dest := "nofile" }
        (World.single "d" "a")).2 = some (.error "stat: no such file or directory") ∧
      (main fragmentCompile {} { line := "x", dest := "nofile" } (World.single "d" "a")).2 = 0 :=
  ⟨rfl, rfl⟩

/-- C14 fails on the code for present mode: with owner `nobody` configured and
`chown` failing, `write_changes` returns the error and leaves the destination
as it was, `do_absent` returns that error, but `do_present` returns `nil`. -/
theorem present_drops_chown_error :
    (write_changes { chown_err := some "chown failed" }
        { line := "x", dest := "d", owner := "nobody" } (World.single "d" "a") ["a", "x"]).2 =
        some (.error "chown failed") ∧
      (do_absent fragmentCompile { chown_err := some "chown failed" }
        { line := "a", dest := "d", owner := "nobody", absent := true }
        (World.single "d" "a")).2 = some (.error "chown failed") ∧
      (do_present fragmentCompile { chown_err := some "chown failed" }
        { line := "x", dest := "d", owner := "nobody" } (World.single "d" "a")).2 = none ∧
      (do_present fragmentCompile { chown_err := some "chown failed" }
        { line := "x", dest := "d", owner := "nobody" } (World.single "d" "a")).1.files "d" =
        some "a" :=
  ⟨rfl, rfl, rfl, rfl⟩

/-! ## `write_changes` and the destination -/

theorem write_changes_return_files (sys : Sys) (tmp : String) (w : World)
    (err : Option Failure) (path : String) (hne : tmp ≠ path) :
    (write_changes_return sys tmp w err).1.files path = w.files path ∧
      (write_changes_return sys tmp w err).2 = err ∧
      (write_changes_return sys tmp w err).1.calls = w.calls := by
  unfold write_changes_return
  cases sys.remove_err <;> simp [World.del, Ne.symm hne]

theorem write_changes_calls (sys : Sys) (cfg : Config) (w : World) (b_lines : List String) :
    (write_changes sys cfg w b_lines).1.calls = w.calls ++ [.write_changes b_lines] := by
  unfold write_changes
  rcases sys.tempfile with err | tmp
  · rfl
  · simp only []
    rcases sys.write_err with _ | ⟨err, written⟩
    · rcases sys.close_err with _ | err
      · simp only []
        split_ifs <;> try (simp only [write_changes_return]; split <;> rfl)
        rcases sys.rename_err with _ | err <;>
          (simp only [write_changes_return]; split <;> rfl)
      · simp only [write_changes_return]
        split <;> rfl
    · simp only [write_changes_return]
      split <;> rfl

theorem write_changes_dest (sys : Sys) (cfg : Config) (w : World) (b_lines : List String)
    (htmp : ∀ tmp, sys.tempfile = .ok tmp → tmp ≠ cfg.dest) :
    ((write_changes sys cfg w b_lines).2 = none ∧
        (write_changes sys cfg w b_lines).1.files cfg.dest = some (Join b_lines "\n")) ∨
      ((write_changes sys cfg w b_lines).2 ≠ none ∧
        (write_changes sys cfg w b_lines).1.files cfg.dest = w.files cfg.dest) := by
  unfold write_changes
  rcases ht : sys.tempfile with err | tmp
  · right
    exact ⟨by simp, rfl⟩
  · have hne : tmp ≠ cfg.dest := htmp tmp ht
    have hne' : cfg.dest ≠ tmp := Ne.symm hne
    simp only []
    rcases sys.write_err with _ | ⟨err, written⟩
    · rcases sys.close_err with _ | err
      · simp only []
        split_ifs with h1 h2 h3
        · right
          obtain ⟨e, he⟩ := Option.isSome_iff_exists.1 h1.2
          obtain ⟨hf, hr, _⟩ := write_changes_return_files sys tmp
            ((w.log (.write_changes b_lines)).put tmp "" |>.put tmp (Join b_lines "\n"))
            (sys.chown_err.map Failure.error) cfg.dest hne
          rw [hf, hr, he]
          exact ⟨by simp, by simp [World.put, World.log, hne']⟩
        · right
          obtain ⟨e, he⟩ := Option.isSome_iff_exists.1 h2.2
          obtain ⟨hf, hr, _⟩ := write_changes_return_files sys tmp
            ((w.log (.write_changes b_lines)).put tmp "" |>.put tmp (Join b_lines "\n"))
            (sys.chgrp_err.map Failure.error) cfg.dest hne
          rw [hf, hr, he]
          exact ⟨by simp, by simp [World.put, World.log, hne']⟩
        · right
          obtain ⟨e, he⟩ := Option.isSome_iff_exists.1 h3.2
          obtain ⟨hf, hr, _⟩ := write_changes_return_files sys tmp
            ((w.log (.write_changes b_lines)).put tmp "" |>.put tmp (Join b_lines "\n"))
            (sys.chmod_err.map Failure.error) cfg.dest hne
          rw [hf, hr, he]
          exact ⟨by simp, by simp [World.put, World.log, hne']⟩
        · rcases sys.rename_err with _ | err
          · left
            obtain ⟨hf, hr, _⟩ := write_changes_return_files sys tmp
              (((w.log (.write_changes b_lines)).put tmp "" |>.put tmp (Join b_lines "\n")).rename
                tmp cfg.dest) none cfg.dest hne
            simp only []
            rw [hf, hr]
            exact ⟨rfl, by simp [World.put, World.rename]⟩
          · right
            obtain ⟨hf, hr, _⟩ := write_changes_return_files sys tmp
              ((w.log (.write_changes b_lines)).put tmp "" |>.put tmp (Join b_lines "\n"))
              (some (.error err)) cfg.dest hne
            simp only []
            rw [hf, hr]
            exact ⟨by simp, by simp [World.put, World.log, hne']⟩
      · right
        obtain ⟨hf, hr, _⟩ := write_changes_return_files sys tmp
          ((w.log (.write_changes b_lines)).put tmp "" |>.put tmp (Join b_lines "\n"))
          (some (.error err)) cfg.dest hne
        simp only []
        rw [hf, hr]
        exact ⟨by simp, by simp [World.put, World.log, hne']⟩
    · right
      obtain ⟨hf, hr, _⟩ := write_changes_return_files sys tmp
        ((w.log (.write_changes b_lines)).put tmp "" |>.put tmp written)
        (some (.error err)) cfg.dest hne
      simp only []
      rw [hf, hr]
      exact ⟨by simp, by simp [World.put, World.log, hne']⟩

/-- C15: when the temporary file is not the destination path, whatever the
outcome of each step, `write_changes` either returns `nil` and the destination
holds the lines joined with `"\n"`, or returns an error and the destination
holds what it held before; so only the rename step changes the destination. -/
theorem write_changes_atomic (sys : Sys) (cfg : Config) (w : World) (b_lines : List String)
    (htmp : ∀ tmp, sys.tempfile = .ok tmp → tmp ≠ cfg.dest) :
    ((write_changes sys cfg w b_lines).2 = none →
        (write_changes sys cfg w b_lines).1.files cfg.dest = some (Join b_lines "\n")) ∧
      ((write_changes sys cfg w b_lines).2 ≠ none →
        (write_changes sys cfg w b_lines).1.files cfg.dest = w.files cfg.dest) := by
  rcases write_changes_dest sys cfg w b_lines htmp with ⟨hok, hfiles⟩ | ⟨herr, hfiles⟩
  · exact ⟨fun _ => hfiles, fun h => absurd hok h⟩
  · exact ⟨fun h => absurd h herr, fun _ => hfiles⟩

/-- Witness of C15: a failing `chmod` leaves the file `d` as it was. -/
theorem write_changes_atomic_witness :
    ((write_changes { chmod_err := some "chmod failed" } { line := "x", dest := "d", mode := "abc" }
          (World.single "d" "a") ["a", "x"]).2 = none →
        (write_changes { chmod_err := some "chmod failed" }
          { line := "x", dest := "d", mode := "abc" }
          (World.single "d" "a") ["a", "x"]).1.files "d" = some (Join ["a", "x"] "\n")) ∧
      ((write_changes { chmod_err := some "chmod failed" }
          { line := "x", dest := "d", mode := "abc" }
          (World.single "d" "a") ["a", "x"]).2 ≠ none →
        (write_changes { chmod_err := some "chmod failed" }
          { line := "x", dest := "d", mode := "abc" }
          (World.single "d" "a") ["a", "x"]).1.files "d" = (World.single "d" "a").files "d") :=
  write_changes_atomic { chmod_err := some "chmod failed" }
    { line := "x", dest := "d", mode := "abc" } (World.single "d" "a") ["a", "x"]
    (fun tmp h => by
      cases h
      decide)

/-! ## Absent mode with its effects -/

theorem do_absent_keep_filter (compile : Compiler) (cfg : Config) (b_lines keep : List String)
    (hkeep : do_absent_keep compile cfg b_lines = .ok keep) :
    ∃ p : String → Bool, keep = b_lines.filter p := by
  unfold do_absent_keep at hkeep
  split_ifs at hkeep with hre
  · rcases hc : compile cfg.regexp with err | bre_c
    · rw [hc] at hkeep
      cases hkeep
    · rw [hc] at hkeep
      simp only [keep_matching_eq, List.nil_append] at hkeep
      cases hkeep
      exact ⟨_, rfl⟩
  · simp only [keep_unequal_eq, List.nil_append] at hkeep
    cases hkeep
    exact ⟨_, rfl⟩

theorem copyFile_calls (sys : Sys) (w : World) (src dst : String) :
    (copyFile sys w src dst).1.calls = w.calls := by
  unfold copyFile
  rcases w.files src with _ | content
  · rfl
  · rcases sys.open_err with _ | e
    · rcases sys.create_err with _ | e
      · rcases sys.copy_err with _ | ⟨e, copied⟩
        · rcases sys.sync_err with _ | e <;> rfl
        · rfl
      · rfl
    · rfl

theorem backup_local_calls (sys : Sys) (w : World) (fn : String) :
    (backup_local sys w fn).1.calls = w.calls ++ [.backup_local fn] := by
  unfold backup_local
  rw [copyFile_calls]
  rfl

theorem do_absent_of_keep (compile : Compiler) (sys : Sys) (cfg : Config) (w : World)
    (content : String) (keep : List String)
    (hfile : w.files cfg.dest = some content) (hread : sys.read_err = none)
    (hkeep : do_absent_keep compile cfg (Split content '\n') = .ok keep) :
    do_absent compile sys cfg w =
      if keep.length ≠ (Split content '\n').length ∧ cfg.backup = true then
        match backup_local sys w cfg.dest with
        | (w, some err) => (w, some err)
        | (w, none) => write_changes sys cfg w keep
      else
        write_changes sys cfg w keep := by
  unfold do_absent
  rw [hfile, hread]
  simp only [hkeep]

/-! ## Present mode: the result as a single edit -/

/-- C18: when the patterns compile, the result of present mode is the initial
sequence with one edit: either it has the same length and differs from it at
one index at most, where it holds the target line, or it is one longer, holds the
target line at some index, and erasing that index gives the initial sequence
back; in both cases the target line is in the result. -/
theorem present_single_edit (compile : Compiler) (cfg : Config)
    (bre_m bre_ins : Option Regexp) (b_lines : List String)
    (hm : compile_bre_m compile cfg = .ok bre_m)
    (hins : compile_bre_ins compile cfg = .ok bre_ins) :
    ∃ result changed, do_present_lines compile cfg b_lines = .ok (result, changed) ∧
      ((result.length = b_lines.length ∧
          ∃ i, i < b_lines.length ∧ result[i]? = some cfg.line ∧
            ∀ j, j ≠ i → result[j]? = b_lines[j]?) ∨
        (result.length = b_lines.length + 1 ∧
          ∃ p, result[p]? = some cfg.line ∧ result.eraseIdx p = b_lines)) ∧
      cfg.line ∈ result := by
  by_cases h : ∃ l ∈ b_lines, match_found cfg bre_m l = true
  · obtain ⟨pre, x, post, rfl, hx, hpost⟩ := exists_last_match (match_found cfg bre_m) b_lines h
    refine ⟨pre ++ cfg.line :: post, x != cfg.line,
      present_found compile cfg bre_m bre_ins pre post x hm hins hx hpost, Or.inl ⟨by simp, ?_⟩,
      by simp⟩
    refine ⟨pre.length, by simp, ?_, ?_⟩
    · rw [List.getElem?_append_right (le_refl _)]
      simp
    intro j hj
    have hset : pre ++ cfg.line :: post = (pre ++ x :: post).set pre.length cfg.line := by
      rw [List.set_append_right _ _ (le_refl _)]
      simp
    rw [hset]
    exact List.getElem?_set_ne (Ne.symm hj)
  · have hnone : ∀ l ∈ b_lines, match_found cfg bre_m l = false := by
      intro l hl
      by_contra hc
      exact h ⟨l, hl, by simpa using hc⟩
    obtain ⟨p, hp, hres⟩ := present_not_found compile cfg bre_m bre_ins b_lines hm hins hnone
    have hlen : (b_lines.take p).length = p := by
      rw [List.length_take]
      omega
    refine ⟨_, true, hres, Or.inr ⟨?_, p, ?_, ?_⟩, by simp⟩
    · have := congrArg List.length (List.take_append_drop p b_lines)
      simp only [List.length_append, List.length_cons] at this ⊢
      omega
    · rw [List.getElem?_append_right (by omega), hlen]
      simp
    · rw [List.eraseIdx_append_of_length_le (by omega), hlen]
      simp

/-- Witness of C18: an insertion after the anchor `^a` makes the result one
longer. -/
theorem present_single_edit_witness :
    ∃ result changed,
      do_present_lines fragmentCompile { line := "x", insert_after := "^a" } ["a", "b"] =
        .ok (result, changed) ∧
      ((result.length = ["a", "b"].length ∧
          ∃ i, i < ["a", "b"].length ∧ result[i]? = some "x" ∧
            ∀ j, j ≠ i → result[j]? = ["a", "b"][j]?) ∨
        (result.length = ["a", "b"].length + 1 ∧
          ∃ p, result[p]? = some "x" ∧ result.eraseIdx p = ["a", "b"])) ∧
      "x" ∈ result :=
  present_single_edit fragmentCompile { line := "x", insert_after := "^a" } _ _ ["a", "b"]
    rfl rfl

/-! ## `strings.Split` followed by `strings.Join` -/

theorem split_chars_ne_nil (sep : Char) (cs : List Char) : split_chars sep cs ≠ [] := by
  cases cs with
  | nil => simp [split_chars]
  | cons c cs =>
    unfold split_chars
    split_ifs
    · simp
    · split <;> simp

theorem Join_mk_cons (c : Char) (piece : List Char) (pieces : List String) (sep : String) :
    Join (String.mk (c :: piece) :: pieces) sep =
      String.mk [c] ++ Join (String.mk piece :: pieces) sep := by
  cases pieces with
  | nil => rfl
  | cons q qs =>
    show String.mk (c :: piece) ++ sep ++ Join (q :: qs) sep =
      String.mk [c] ++ (String.mk piece ++ sep ++ Join (q :: qs) sep)
    rw [← String.append_assoc, ← String.append_assoc]
    rfl

theorem Join_split_chars (cs : List Char) :
    Join ((split_chars '\n' cs).map String.mk) "\n" = String.mk cs := by
  induction cs with
  | nil => rfl
  | cons c cs ih =>
    unfold split_chars
    split_ifs with hc
    · rw [List.map_cons, Join_cons_of_ne_nil _ _ _ (by simpa using split_chars_ne_nil '\n' cs),
        ih, hc]
      rfl
    · rcases hs : split_chars '\n' cs with _ | ⟨piece, pieces⟩
      · exact absurd hs (split_chars_ne_nil '\n' cs)
      · rw [hs] at ih
        simp only [List.map_cons] at ih ⊢
        rw [Join_mk_cons, ih]
        rfl

theorem filter_eq_self_of_length (p : String → Bool) (l : List String)
    (h : (l.filter p).length = l.length) : l.filter p = l :=
  (List.filter_sublist l).eq_of_length h

/-- C19: joining with `"\n"` the pieces of a split on `"\n"` gives the string
back; hence an absent-mode run that reads the destination, keeps as many lines
as it read, and uses a temporary file other than the destination, keeps exactly
the lines read, writes a text equal to the content read, and leaves the
destination with that content. -/
theorem absent_rewrites_same_content (compile : Compiler) (sys : Sys) (cfg : Config)
    (w : World) (s content : String) (keep : List String)
    (hfile : w.files cfg.dest = some content) (hread : sys.read_err = none)
    (hkeep : do_absent_keep compile cfg (Split content '\n') = .ok keep)
    (hcount : keep.length = (Split content '\n').length)
    (htmp : ∀ tmp, sys.tempfile = .ok tmp → tmp ≠ cfg.dest) :
    Join (Split s '\n') "\n" = s ∧
      keep = Split content '\n' ∧
      written_content keep = content ∧
      do_absent compile sys cfg w = write_changes sys cfg w keep ∧
      (do_absent compile sys cfg w).1.files cfg.dest = some content := by
  have hjoin : ∀ t : String, Join (Split t '\n') "\n" = t := fun t => Join_split_chars t.data
  obtain ⟨p, hp⟩ := do_absent_keep_filter compile cfg _ keep hkeep
  have hk : keep = Split content '\n' := by
    rw [hp]
    exact filter_eq_self_of_length p _ (by rw [← hp]; exact hcount)
  have hrun := do_absent_of_keep compile sys cfg w content keep hfile hread hkeep
  rw [if_neg (fun hc => hc.1 hcount)] at hrun
  refine ⟨hjoin s, hk, by rw [hk]; exact hjoin content, hrun, ?_⟩
  rw [hrun]
  rcases write_changes_dest sys cfg w keep htmp with ⟨_, hfiles⟩ | ⟨_, hfiles⟩
  · rw [hfiles, hk, hjoin content]
  · rw [hfiles, hfile]

/-- Witness of C19: target `zzz` is not in the file `d`, which holds `a\nb\n`. -/
theorem absent_rewrites_same_content_witness :
    Join (Split "a\n\nb" '\n') "\n" = "a\n\nb" ∧
      ["a", "b", ""] = Split "a\nb\n" '\n' ∧
      written_content ["a", "b", ""] = "a\nb\n" ∧
      do_absent fragmentCompile {} { line := "zzz", dest := "d", absent := true }
          (World.single "d" "a\nb\n") =
        write_changes {} { line := "zzz", dest := "d", absent := true }
          (World.single "d" "a\nb\n") ["a", "b", ""] ∧
      (do_absent fragmentCompile {} { line := "zzz", dest := "d", absent := true }
        (World.single "d" "a\nb\n")).1.files "d" = some "a\nb\n" :=
  absent_rewrites_same_content fragmentCompile {} { line := "zzz", dest := "d", absent := true }
    (World.single "d" "a\nb\n") "a\n\nb" "a\nb\n" ["a", "b", ""] rfl rfl rfl rfl
    (fun tmp h => by
      cases h
      decide)

/-! ## Present mode: indices stay in range -/

theorem scan_step_fst_cases (cfg : Config) (bre_m bre_ins : Option Regexp) (n : Int)
    (x : String) (st : Int × Int) :
    (scan_step cfg bre_m bre_ins n x st).1 = st.1 ∨
      (scan_step cfg bre_m bre_ins n x st).1 = n := by
  unfold scan_step
  split
  · exact Or.inr rfl
  · split
    · exact Or.inl rfl
    · exact Or.inl rfl

theorem scan_from_fst_bounds (cfg : Config) (bre_m bre_ins : Option Regexp)
    (xs : List String) (n : Int) (st : Int × Int) (hn : 0 ≤ n)
    (hst : st.1 = -1 ∨ (0 ≤ st.1 ∧ st.1 < n)) :
    (scan_from cfg bre_m bre_ins xs n st).1 = -1 ∨
      (0 ≤ (scan_from cfg bre_m bre_ins xs n st).1 ∧
        (scan_from cfg bre_m bre_ins xs n st).1 < n + xs.length) := by
  induction xs generalizing n st with
  | nil => simpa [scan_from] using hst
  | cons x xs ih =>
    rw [scan_from]
    have hstep : (scan_step cfg bre_m bre_ins n x st).1 = -1 ∨
        (0 ≤ (scan_step cfg bre_m bre_ins n x st).1 ∧
          (scan_step cfg bre_m bre_ins n x st).1 < n + 1) := by
      rcases scan_step_fst_cases cfg bre_m bre_ins n x st with h | h <;> rw [h] <;> omega
    have := ih (n + 1) (scan_step cfg bre_m bre_ins n x st) (by omega) hstep
    simp only [List.length_cons]
    push_cast
    omega

theorem scan_fst_bounds (cfg : Config) (bre_m bre_ins : Option Regexp) (b_lines : List String) :
    (scan cfg bre_m bre_ins b_lines).1 = -1 ∨
      (0 ≤ (scan cfg bre_m bre_ins b_lines).1 ∧
        (scan cfg bre_m bre_ins b_lines).1 < b_lines.length) := by
  have := scan_from_fst_bounds cfg bre_m bre_ins b_lines 0 (-1, -1) (le_refl 0) (Or.inl rfl)
  simpa [scan] using this

theorem insert_ok (slice : List String) (pos : Int) (elements : List String)
    (h0 : 0 ≤ pos) (hlen : pos ≤ slice.length) :
    ∃ r, insert slice pos elements = .ok r := by
  unfold insert
  rw [if_pos ⟨h0, hlen⟩]
  exact ⟨_, rfl⟩

theorem reconcile_ok (cfg : Config) (b_lines : List String) (line_idx insert_idx : Int)
    (hline : line_idx = -1 ∨ (0 ≤ line_idx ∧ line_idx < b_lines.length))
    (hinsert : insert_idx = -1 ∨ (0 ≤ insert_idx ∧ insert_idx ≤ b_lines.length)) :
    ∃ r, reconcile cfg b_lines line_idx insert_idx = .ok r := by
  unfold reconcile
  split_ifs with h1 h2 h3 h4 h5
  · have hlt : line_idx.toNat < b_lines.length := by omega
    rw [List.getElem?_eq_getElem hlt]
    exact ⟨_, rfl⟩
  · omega
  · obtain ⟨r, hr⟩ := insert_ok b_lines insert_idx [cfg.line] (by omega) (by omega)
    rw [hr]
    exact ⟨_, rfl⟩
  · exact ⟨_, rfl⟩
  · obtain ⟨r, hr⟩ := insert_ok b_lines ((b_lines.length : Int) - 1) [cfg.line]
      (by omega) (by omega)
    rw [hr]
    exact ⟨_, rfl⟩
  · exact ⟨_, rfl⟩

theorem compile_bre_m_no_panic (compile : Compiler) (cfg : Config) (what : String) :
    compile_bre_m compile cfg ≠ .error (.panic what) := by
  unfold compile_bre_m
  split_ifs
  · split <;> simp
  · simp

theorem compile_bre_ins_no_panic (compile : Compiler) (cfg : Config) (what : String) :
    compile_bre_ins compile cfg ≠ .error (.panic what) := by
  unfold compile_bre_ins
  split_ifs
  · split <;> simp
  · split <;> simp
  · simp

theorem do_present_lines_no_panic (compile : Compiler) (cfg : Config) (b_lines : List String)
    (what : String) : do_present_lines compile cfg b_lines ≠ .error (.panic what) := by
  unfold do_present_lines
  rcases hm : compile_bre_m compile cfg with e | m
  · intro h
    simp only [] at h
    exact compile_bre_m_no_panic compile cfg what (by rw [hm, Except.error.inj h])
  · rcases hins : compile_bre_ins compile cfg with e | a
    · intro h
      simp only [] at h
      exact compile_bre_ins_no_panic compile cfg what (by rw [hins, Except.error.inj h])
    · obtain ⟨r, hr⟩ := reconcile_ok cfg b_lines _ _ (scan_fst_bounds cfg m a b_lines)
        (scan_snd_bounds cfg m a b_lines)
      simp only [hr]
      simp

/-- C20: for every line sequence, the empty one included, and every
configuration, after the scan `line_idx` is `-1` or lies in `0 ≤ line_idx <
len(b_lines)`, `insert_idx` is `-1` or lies in `0 ≤ insert_idx ≤ len(b_lines)`,
the decision returns a result, and `do_present_lines` never ends in a panic,
whatever the patterns. -/
theorem present_indices_in_range (compile : Compiler) (cfg : Config)
    (bre_m bre_ins : Option Regexp) (b_lines : List String) :
    ((scan cfg bre_m bre_ins b_lines).1 = -1 ∨
        (0 ≤ (scan cfg bre_m bre_ins b_lines).1 ∧
          (scan cfg bre_m bre_ins b_lines).1 < b_lines.length)) ∧
      ((scan cfg bre_m bre_ins b_lines).2 = -1 ∨
        (0 ≤ (scan cfg bre_m bre_ins b_lines).2 ∧
          (scan cfg bre_m bre_ins b_lines).2 ≤ b_lines.length)) ∧
      (∃ r, reconcile cfg b_lines (scan cfg bre_m bre_ins b_lines).1
        (scan cfg bre_m bre_ins b_lines).2 = .ok r) ∧
      ∀ what, do_present_lines compile cfg b_lines ≠ .error (.panic what) := by
  refine ⟨scan_fst_bounds cfg bre_m bre_ins b_lines, scan_snd_bounds cfg bre_m bre_ins b_lines,
    reconcile_ok cfg b_lines _ _ (scan_fst_bounds cfg bre_m bre_ins b_lines)
      (scan_snd_bounds cfg bre_m bre_ins b_lines), ?_⟩
  exact fun what => do_present_lines_no_panic compile cfg b_lines what

/-! ## `strings.Join` followed by `strings.Split` -/

theorem split_chars_of_not_mem (sep : Char) (piece : List Char) (h : sep ∉ piece) :
    split_chars sep piece = [piece] := by
  induction piece with
  | nil => rfl
  | cons c cs ih =>
    have hc : c ≠ sep := fun heq => h (heq ▸ List.mem_cons_self _ _)
    have hcs : sep ∉ cs := fun hmem => h (List.mem_cons_of_mem _ hmem)
    unfold split_chars
    rw [if_neg hc, ih hcs]

theorem split_chars_append_sep (sep : Char) (piece cs : List Char) (h : sep ∉ piece) :
    split_chars sep (piece ++ sep :: cs) = piece :: split_chars sep cs := by
  induction piece with
  | nil =>
    show split_chars sep (sep :: cs) = [] :: split_chars sep cs
    rw [split_chars, if_pos rfl]
  | cons c p ih =>
    have hc : c ≠ sep := fun heq => h (heq ▸ List.mem_cons_self _ _)
    have hp : sep ∉ p := fun hmem => h (List.mem_cons_of_mem _ hmem)
    rw [List.cons_append, split_chars, if_neg hc, ih hp]

theorem split_chars_no_sep (sep : Char) (cs : List Char) :
    ∀ piece ∈ split_chars sep cs, sep ∉ piece := by
  induction cs with
  | nil =>
    intro piece hp
    simp only [split_chars, List.mem_singleton] at hp
    subst hp
    simp
  | cons c cs ih =>
    intro piece hp
    unfold split_chars at hp
    split_ifs at hp with hc
    · rcases List.mem_cons.1 hp with rfl | hmem
      · simp
      · exact ih piece hmem
    · rcases hs : split_chars sep cs with _ | ⟨q, qs⟩
      · exact absurd hs (split_chars_ne_nil sep cs)
      · rw [hs] at hp ih
        simp only [List.mem_cons] at hp
        rcases hp with rfl | hmem
        · intro hmem
          rcases List.mem_cons.1 hmem with heq | hq
          · exact hc heq.symm
          · exact ih q (List.mem_cons_self _ _) hq
        · exact ih piece (List.mem_cons_of_mem _ hmem)

theorem Split_no_newline (content : String) :
    ∀ l ∈ Split content '\n', '\n' ∉ l.data := by
  intro l hl
  unfold Split at hl
  obtain ⟨piece, hpiece, rfl⟩ := List.mem_map.1 hl
  exact split_chars_no_sep '\n' content.data piece hpiece

theorem Split_ne_nil (content : String) : Split content '\n' ≠ [] := by
  unfold Split
  simpa using split_chars_ne_nil '\n' content.data

theorem Split_Join (ls : List String) (hne : ls ≠ []) (h : ∀ l ∈ ls, '\n' ∉ l.data) :
    Split (Join ls "\n") '\n' = ls := by
  induction ls with
  | nil => exact absurd rfl hne
  | cons e rest ih =>
    have he : '\n' ∉ e.data := h e (List.mem_cons_self _ _)
    cases rest with
    | nil =>
      show (split_chars '\n' e.data).map String.mk = [e]
      rw [split_chars_of_not_mem _ _ he]
      rfl
    | cons e' rest' =>
      have ih' := ih (by simp) (fun l hl => h l (List.mem_cons_of_mem _ hl))
      unfold Split at ih' ⊢
      have hdata : (Join (e :: e' :: rest') "\n").data =
          e.data ++ '\n' :: (Join (e' :: rest') "\n").data := by
        show (e ++ "\n" ++ Join (e' :: rest') "\n").data = _
        simp [String.data_append]
      rw [hdata, split_chars_append_sep _ _ _ he, List.map_cons, ih']

/-! ## Present mode: a second run on the file written by the first -/

theorem present_result_lines (compile : Compiler) (cfg : Config)
    (bre_m bre_ins : Option Regexp) (b_lines : List String)
    (hm : compile_bre_m compile cfg = .ok bre_m)
    (hins : compile_bre_ins compile cfg = .ok bre_ins) :
    ∃ result changed, do_present_lines compile cfg b_lines = .ok (result, changed) ∧
      result ≠ [] ∧ (∀ l ∈ result, l = cfg.line ∨ l ∈ b_lines) ∧
      (changed = false → result = b_lines) := by
  by_cases h : ∃ l ∈ b_lines, match_found cfg bre_m l = true
  · obtain ⟨pre, x, post, rfl, hx, hpost⟩ := exists_last_match (match_found cfg bre_m) b_lines h
    refine ⟨pre ++ cfg.line :: post, x != cfg.line,
      present_found compile cfg bre_m bre_ins pre post x hm hins hx hpost, by simp, ?_, ?_⟩
    · intro l hl
      simp only [List.mem_append, List.mem_cons] at hl ⊢
      tauto
    · intro hsame
      have hx' : x = cfg.line := by simpa using hsame
      rw [hx']
  · have hnone : ∀ l ∈ b_lines, match_found cfg bre_m l = false := by
      intro l hl
      by_contra hc
      exact h ⟨l, hl, by simpa using hc⟩
    obtain ⟨p, _, hres⟩ := present_not_found compile cfg bre_m bre_ins b_lines hm hins hnone
    refine ⟨_, true, hres, by simp, ?_, by simp⟩
    intro l hl
    simp only [List.mem_append, List.mem_cons] at hl
    rcases hl with hl | rfl | hl
    · exact Or.inr (List.mem_of_mem_take hl)
    · exact Or.inl rfl
    · exact Or.inr (List.mem_of_mem_drop hl)

theorem do_present_of_change (compile : Compiler) (sys : Sys) (cfg : Config) (w : World)
    (content : String) (result : List String)
    (hfile : w.files cfg.dest = some content) (hread : sys.read_err = none)
    (hrun : do_present_lines compile cfg (Split content '\n') = .ok (result, true)) :
    do_present compile sys cfg w =
      if cfg.backup = true then
        match backup_local sys w cfg.dest with
        | (w, some err) => (w, some err)
        | (w, none) => ((write_changes sys cfg w result).1, none)
      else
        ((write_changes sys cfg w result).1, none) := by
  unfold do_present
  rw [do_present_of_read sys cfg w content hfile hread]
  simp only [hrun]
  rfl

theorem do_present_of_no_change (compile : Compiler) (sys : Sys) (cfg : Config) (w : World)
    (content : String) (result : List String)
    (hfile : w.files cfg.dest = some content) (hread : sys.read_err = none)
    (hrun : do_present_lines compile cfg (Split content '\n') = .ok (result, false)) :
    do_present compile sys cfg w = (w, none) := by
  unfold do_present
  rw [do_present_of_read sys cfg w content hfile hread]
  simp only [hrun]
  rfl

/-- C2 as stated fails, in two ways.  With regexp `foo` and target line `bar`,
which the regexp does not match, the first run turns `["x"]` into `["x", "bar"]`
and a second run on that output appends again and reports a change.  With the
target line `a\nb` and no regexp, the first run leaves `x\na\nb` in the file `d`
and the second run, which reads three lines none of which is the target, leaves
`x\na\nb\na\nb`. -/
theorem present_second_run_changes :
    (do_present_lines fragmentCompile { line := "bar", regexp := "foo" } ["x"] =
        .ok (["x", "bar"], true) ∧
      do_present_lines fragmentCompile { line := "bar", regexp := "foo" } ["x", "bar"] =
        .ok (["x", "bar", "bar"], true)) ∧
    ((do_present fragmentCompile {} { line := "a\nb", dest := "d" }
        (World.single "d" "x")).1.files "d" = some "x\na\nb" ∧
      (do_present fragmentCompile {} { line := "a\nb", dest := "d" }
        (do_present fragmentCompile {} { line := "a\nb", dest := "d" }
          (World.single "d" "x")).1).1.files "d" = some "x\na\nb\na\nb") :=
  ⟨⟨rfl, rfl⟩, rfl, rfl⟩

/-- C2, amended: when the patterns compile, the target line contains no newline
and itself satisfies the presence predicate (no regexp is given, or the regexp
matches the target line), and the first run starts from the lines of a file or
from the nil slice, then the first run returns a result such that: the text
written for it splits back into the same lines; a second reconciliation of
those lines reports `changed = false` and returns them as they are;
`do_present`, run with the same arguments in any state where the destination
holds that text and is read, returns `nil` and leaves the state as it is; and
when the first `do_present` reads the destination and its backup and write
steps, if any, succeed, a second `do_present` on the state it leaves returns
`nil` and changes nothing. -/
theorem present_idempotent (compile : Compiler) (cfg : Config)
    (bre_m bre_ins : Option Regexp) (b_lines : List String)
    (hm : compile_bre_m compile cfg = .ok bre_m)
    (hins : compile_bre_ins compile cfg = .ok bre_ins)
    (hline : cfg.regexp = "" ∨ match_found cfg bre_m cfg.line = true)
    (hnl : '\n' ∉ cfg.line.data)
    (hlines : b_lines = [] ∨ ∃ content, b_lines = Split content '\n') :
    ∃ result changed, do_present_lines compile cfg b_lines = .ok (result, changed) ∧
      Split (written_content result) '\n' = result ∧
      do_present_lines compile cfg result = .ok (result, false) ∧
      (∀ (sys : Sys) (w : World), w.files cfg.dest = some (written_content result) →
        sys.read_err = none → do_present compile sys cfg w = (w, none)) ∧
      (∀ (sys₁ sys₂ : Sys) (w : World) (content : String),
        b_lines = Split content '\n' → w.files cfg.dest = some content →
        sys₁.read_err = none → sys₂.read_err = none →
        (∀ tmp, sys₁.tempfile = .ok tmp → tmp ≠ cfg.dest) →
        (changed = true → cfg.backup = true → (backup_local sys₁ w cfg.dest).2 = none) →
        (changed = true →
          (write_changes sys₁ cfg
            (if cfg.backup = true then (backup_local sys₁ w cfg.dest).1 else w) result).2 =
            none) →
        do_present compile sys₂ cfg (do_present compile sys₁ cfg w).1 =
          ((do_present compile sys₁ cfg w).1, none)) := by
  obtain ⟨result, changed, hrun, hsecond⟩ :=
    second_run_on_result compile cfg bre_m bre_ins b_lines hm hins hline
  obtain ⟨result', changed', hrun', hne, hmem, hkeep⟩ :=
    present_result_lines compile cfg bre_m bre_ins b_lines hm hins
  have hboth : result' = result ∧ changed' = changed := by
    rw [hrun] at hrun'
    injection hrun' with h
    exact ⟨(congrArg Prod.fst h).symm, (congrArg Prod.snd h).symm⟩
  obtain ⟨hsame, hsamec⟩ := hboth
  subst hsame
  subst hsamec
  have hclean : ∀ l ∈ b_lines, '\n' ∉ l.data := by
    rcases hlines with rfl | ⟨content, rfl⟩
    · intro l hl
      cases hl
    · exact Split_no_newline content
  have hback : Split (written_content result') '\n' = result' := by
    unfold written_content
    refine Split_Join result' hne ?_
    intro l hl
    rcases hmem l hl with rfl | hb
    · exact hnl
    · exact hclean l hb
  have hnoop : ∀ (sys : Sys) (w : World), w.files cfg.dest = some (written_content result') →
      sys.read_err = none → do_present compile sys cfg w = (w, none) := by
    intro sys w hfile hread
    refine do_present_of_no_change compile sys cfg w _ result' hfile hread ?_
    rw [hback]
    exact hsecond
  refine ⟨result', changed', hrun, hback, hsecond, hnoop, ?_⟩
  intro sys₁ sys₂ w content hb hfile hread₁ hread₂ htmp hbackup hwrite
  refine hnoop sys₂ _ ?_ hread₂
  subst hb
  cases changed' with
  | false =>
    rw [do_present_of_no_change compile sys₁ cfg w content result' hfile hread₁ hrun, hfile,
      hkeep rfl]
    exact congrArg some (Join_split_chars content.data).symm
  | true =>
    rw [do_present_of_change compile sys₁ cfg w content result' hfile hread₁ hrun]
    by_cases hbk : cfg.backup = true
    · have hok := hbackup rfl hbk
      have hw := hwrite rfl
      rw [if_pos hbk] at hw ⊢
      rcases hb' : backup_local sys₁ w cfg.dest with ⟨w1, res⟩
      rw [hb'] at hok hw
      simp only at hok hw
      subst hok
      show (write_changes sys₁ cfg w1 result').1.files cfg.dest = _
      rcases write_changes_dest sys₁ cfg w1 result' htmp with ⟨_, hfiles⟩ | ⟨herr, _⟩
      · exact hfiles
      · exact absurd hw herr
    · have hw := hwrite rfl
      rw [if_neg hbk] at hw ⊢
      show (write_changes sys₁ cfg w result').1.files cfg.dest = _
      rcases write_changes_dest sys₁ cfg w result' htmp with ⟨_, hfiles⟩ | ⟨herr, _⟩
      · exact hfiles
      · exact absurd hw herr

/-- Witness of C2 amended: target `x1`, matched by the regexp `^x`, on the file
`d` holding `a\nx0\nb`: the first run leaves `a\nx1\nb`, and a second run on
the state it leaves changes nothing. -/
theorem present_idempotent_witness :
    (do_present fragmentCompile {} { line := "x1", dest := "d", regexp := "^x" }
        (World.single "d" "a\nx0\nb")).1.files "d" = some "a\nx1\nb" ∧
      do_present fragmentCompile {} { line := "x1", dest := "d", regexp := "^x" }
          (do_present fragmentCompile {} { line := "x1", dest := "d", regexp := "^x" }
            (World.single "d" "a\nx0\nb")).1 =
        ((do_present fragmentCompile {} { line := "x1", dest := "d", regexp := "^x" }
          (World.single "d" "a\nx0\nb")).1, none) := by
  obtain ⟨result, changed, hrun, _, _, _, htwice⟩ :=
    present_idempotent fragmentCompile { line := "x1", dest := "d", regexp := "^x" } _ _
      (Split "a\nx0\nb" '\n') rfl rfl (Or.inr rfl) (by decide) (Or.inr ⟨_, rfl⟩)
  have hval : (Except.ok (["a", "x1", "b"], true) : Except Failure (List String × Bool)) =
      .ok (result, changed) := hrun
  cases hval
  refine ⟨rfl, htwice {} {} (World.single "d" "a\nx0\nb") "a\nx0\nb" rfl rfl rfl rfl
    (fun tmp h => by
      cases h
      decide) (fun _ hb => by cases hb) (fun _ => rfl)⟩

/-! ## Present mode: what is written before a trailing blank -/

/-- C8: when the destination is read, its last line is the empty string, the
patterns compile, no line satisfies the presence predicate, no line matches the
anchor and neither insert flag is `BOF`, the reconciliation returns the lines
without the last one followed by the target line and the empty string; the
text of that sequence is the old content followed by the target line and one
newline; `do_present` calls `write_changes` with that sequence (after the
backup when `backup` is set and succeeds) and returns `nil`; and whenever that
`write_changes` returns `nil`, the destination holds the old content followed
by the target line and one newline. -/
theorem present_inserts_before_trailing_blank (compile : Compiler) (sys : Sys) (cfg : Config)
    (w : World) (content : String) (bre_m bre_ins : Option Regexp)
    (hfile : w.files cfg.dest = some content) (hread : sys.read_err = none)
    (hm : compile_bre_m compile cfg = .ok bre_m)
    (hins : compile_bre_ins compile cfg = .ok bre_ins)
    (hnone : ∀ l ∈ Split content '\n', match_found cfg bre_m l = false)
    (hanchor : ∀ l ∈ Split content '\n', ins_found bre_ins l = false)
    (hbefore : cfg.insert_before ≠ "BOF") (hafter : cfg.insert_after ≠ "BOF")
    (hlast : (Split content '\n').getLast? = some "")
    (htmp : ∀ tmp, sys.tempfile = .ok tmp → tmp ≠ cfg.dest) :
    do_present_lines compile cfg (Split content '\n') =
        .ok ((Split content '\n').dropLast ++ [cfg.line, ""], true) ∧
      written_content ((Split content '\n').dropLast ++ [cfg.line, ""]) =
        content ++ cfg.line ++ "\n" ∧
      (cfg.backup = false →
        do_present compile sys cfg w =
            ((write_changes sys cfg w ((Split content '\n').dropLast ++ [cfg.line, ""])).1,
              none) ∧
          (do_present compile sys cfg w).1.calls =
            w.calls ++ [.write_changes ((Split content '\n').dropLast ++ [cfg.line, ""])] ∧
          ((write_changes sys cfg w ((Split content '\n').dropLast ++ [cfg.line, ""])).2 = none →
            (do_present compile sys cfg w).1.files cfg.dest =
              some (content ++ cfg.line ++ "\n"))) ∧
      (cfg.backup = true → (backup_local sys w cfg.dest).2 = none →
        do_present compile sys cfg w =
            ((write_changes sys cfg (backup_local sys w cfg.dest).1
              ((Split content '\n').dropLast ++ [cfg.line, ""])).1, none) ∧
          ((write_changes sys cfg (backup_local sys w cfg.dest).1
              ((Split content '\n').dropLast ++ [cfg.line, ""])).2 = none →
            (do_present compile sys cfg w).1.files cfg.dest =
              some (content ++ cfg.line ++ "\n"))) := by
  obtain ⟨hrun, htext⟩ := blank_tail_lines compile cfg bre_m bre_ins (Split content '\n')
    hm hins hnone hanchor hbefore hafter hlast
  have hold : written_content (Split content '\n') = content := Join_split_chars content.data
  rw [hold] at htext
  have heff := do_present_of_change compile sys cfg w content _ hfile hread hrun
  have hdest : ∀ w1 : World,
      (write_changes sys cfg w1 ((Split content '\n').dropLast ++ [cfg.line, ""])).2 = none →
      (write_changes sys cfg w1 ((Split content '\n').dropLast ++ [cfg.line, ""])).1.files
        cfg.dest = some (content ++ cfg.line ++ "\n") := by
    intro w1 hok
    rcases write_changes_dest sys cfg w1 _ htmp with ⟨_, hfiles⟩ | ⟨herr, _⟩
    · rw [hfiles]
      exact congrArg some htext
    · exact absurd hok herr
  refine ⟨hrun, htext, ?_, ?_⟩
  · intro hb
    have hcond : ¬ cfg.backup = true := by simp [hb]
    rw [heff, if_neg hcond]
    exact ⟨rfl, write_changes_calls sys cfg w _, hdest w⟩
  · intro hb hok
    rw [heff, if_pos hb]
    rcases hb' : backup_local sys w cfg.dest with ⟨w1, res⟩
    rw [hb'] at hok
    simp only at hok
    subst hok
    exact ⟨rfl, hdest w1⟩

/-- Witness of C8: the file `d` holds `a\n`; after `do_present` with target `x`
it holds `a\nx\n`. -/
theorem present_inserts_before_trailing_blank_witness :
    (do_present fragmentCompile {} { line := "x", dest := "d" }
      (World.single "d" "a\n")).1.files "d" = some ("a\n" ++ "x" ++ "\n") :=
  ((present_inserts_before_trailing_blank fragmentCompile {} { line := "x", dest := "d" }
    (World.single "d" "a\n") "a\n" _ _ rfl rfl rfl rfl (by decide) (by decide) (by decide)
    (by decide) rfl
    (fun tmp h => by
      cases h
      decide)).2.2.1 rfl).2.2 rfl

/-! ## Absent mode: which calls are made -/

/-- C17 as stated fails, in two ways.  With `backup` set, a line to remove, and
the creation of the backup file failing, `do_absent` returns that error after
the call to `backup_local`; `write_changes` is not called.  With no file at the
destination `d/x` because `d` is a regular file, `os.Stat` fails with an error
that is not `IsNotExist`, and `do_absent` prints and returns the read error
instead of reporting success. -/
theorem absent_backup_failure_skips_write :
    ((do_absent fragmentCompile { create_err := some "permission denied" }
        { line := "foo", dest := "d", absent := true, backup := true }
        (World.single "d" "foo\nbar")).2 = some (.error "permission denied") ∧
      (do_absent fragmentCompile { create_err := some "permission denied" }
        { line := "foo", dest := "d", absent := true, backup := true }
        (World.single "d" "foo\nbar")).1.calls = [.backup_local "d"]) ∧
    ((World.single "d" "foo\nbar").files "d/x" = none ∧
      (do_absent fragmentCompile { stat_err := some "stat d/x: not a directory" }
        { line := "foo", dest := "d/x", absent := true }
        (World.single "d" "foo\nbar")).2 = some (.error "stat d/x: not a directory") ∧
      (do_absent fragmentCompile { stat_err := some "stat d/x: not a directory" }
        { line := "foo", dest := "d/x", absent := true }
        (World.single "d" "foo\nbar")).1.stdout = ["stat d/x: not a directory"]) :=
  ⟨⟨rfl, rfl⟩, rfl, rfl, rfl⟩

/-- C17, amended: on an existing, readable destination whose pattern compiles,
`backup_local` is called exactly when `backup` is set and fewer lines are kept
than were read; `write_changes` is called with the kept sequence, also when no
line was removed, unless that backup returns an error, which `do_absent` then
returns without calling `write_changes`; when `os.Stat` reports that the
destination does not exist, `do_absent` returns `nil` in the state it started
from; and when no file is at the destination but `os.Stat` fails with another
error, `do_absent` prints and returns an error and calls neither. -/
theorem absent_write_and_backup (compile : Compiler) (sys : Sys) (cfg : Config) (w : World)
    (content : String) (keep : List String)
    (hfile : w.files cfg.dest = some content) (hread : sys.read_err = none)
    (hkeep : do_absent_keep compile cfg (Split content '\n') = .ok keep) :
    keep.length ≤ (Split content '\n').length ∧
      (¬ (cfg.backup = true ∧ keep.length < (Split content '\n').length) →
        do_absent compile sys cfg w = write_changes sys cfg w keep ∧
        (do_absent compile sys cfg w).1.calls = w.calls ++ [.write_changes keep]) ∧
      (cfg.backup = true ∧ keep.length < (Split content '\n').length →
        ((backup_local sys w cfg.dest).2 = none →
          do_absent compile sys cfg w =
            write_changes sys cfg (backup_local sys w cfg.dest).1 keep ∧
          (do_absent compile sys cfg w).1.calls =
            w.calls ++ [.backup_local cfg.dest, .write_changes keep]) ∧
        (∀ err, (backup_local sys w cfg.dest).2 = some err →
          do_absent compile sys cfg w = ((backup_local sys w cfg.dest).1, some err) ∧
          (do_absent compile sys cfg w).1.calls = w.calls ++ [.backup_local cfg.dest])) ∧
      (∀ (sys₀ : Sys) (w₀ : World), w₀.files cfg.dest = none → sys₀.stat_err = none →
        do_absent compile sys₀ cfg w₀ = (w₀, none)) ∧
      (∀ (sys₀ : Sys) (w₀ : World) (err : String), w₀.files cfg.dest = none →
        sys₀.stat_err = some err →
        (do_absent compile sys₀ cfg w₀).2 = some (.error (sys₀.read_err.getD err)) ∧
        (do_absent compile sys₀ cfg w₀).1.stdout = w₀.stdout ++ [sys₀.read_err.getD err] ∧
        (do_absent compile sys₀ cfg w₀).1.calls = w₀.calls ∧
        (do_absent compile sys₀ cfg w₀).1.files = w₀.files) := by
  obtain ⟨p, hp⟩ := do_absent_keep_filter compile cfg _ keep hkeep
  have hle : keep.length ≤ (Split content '\n').length := by
    rw [hp]
    exact List.length_filter_le _ _
  have hrun := do_absent_of_keep compile sys cfg w content keep hfile hread hkeep
  refine ⟨hle, ?_, ?_, ?_, ?_⟩
  · intro hno
    have hcond : ¬ (keep.length ≠ (Split content '\n').length ∧ cfg.backup = true) := by
      rintro ⟨hne, hb⟩
      exact hno ⟨hb, by omega⟩
    rw [hrun, if_neg hcond]
    exact ⟨rfl, write_changes_calls sys cfg w keep⟩
  · rintro ⟨hb, hlt⟩
    have hcond : keep.length ≠ (Split content '\n').length ∧ cfg.backup = true :=
      ⟨by omega, hb⟩
    rw [hrun, if_pos hcond]
    have hcalls := backup_local_calls sys w cfg.dest
    constructor
    · intro hok
      rcases hb' : backup_local sys w cfg.dest with ⟨w1, res⟩
      rw [hb'] at hok hcalls
      simp only at hok hcalls
      subst hok
      refine ⟨rfl, ?_⟩
      show (write_changes sys cfg w1 keep).1.calls = _
      rw [write_changes_calls, hcalls]
      simp
    · intro err herr
      rcases hb' : backup_local sys w cfg.dest with ⟨w1, res⟩
      rw [hb'] at herr hcalls
      simp only at herr hcalls
      subst herr
      exact ⟨rfl, hcalls⟩
  · intro sys₀ w₀ hnone hstat
    unfold do_absent
    rw [hnone, hstat]
  · intro sys₀ w₀ err hnone hstat
    unfold do_absent
    rw [hnone, hstat]
    exact ⟨rfl, rfl, rfl, rfl⟩

/-- Witness of C17 amended: with `backup` set and `foo` removed from the two
lines of `d`, the calls are `backup_local "d"` and then `write_changes ["bar"]`. -/
theorem absent_write_and_backup_witness :
    (do_absent fragmentCompile {} { line := "foo", dest := "d", absent := true, backup := true }
        (World.single "d" "foo\nbar")).1.calls =
      (World.single "d" "foo\nbar").calls ++ [.backup_local "d", .write_changes ["bar"]] :=
  (((absent_write_and_backup fragmentCompile {}
    { line := "foo", dest := "d", absent := true, backup := true }
    (World.single "d" "foo\nbar") "foo\nbar" ["bar"] rfl rfl rfl).2.2.1
      ⟨rfl, by decide⟩).1 rfl).2

end LineInFile
